import Mathlib

/-!
Verification of `scripts/update_syntax_pipeline.py`.

The program text is shallowly embedded over `Str := List Char`.  The Python
`re` fragments used by the script are small enough to model exactly:

* `(?m)^(?P<indent>\s*)MARKER\s*$` (used by `replace_block`) is modelled by
  `searchPat`, an anchored leftmost search with greedy/backtracking semantics
  matching CPython's `re` engine: `^` matches at offset 0 and right after every
  newline; `\s*` is greedy over Python's six ASCII whitespace characters and
  may span newlines; `$` matches at end of text or before a newline.
* the per-line patterns of `parse_tokenkind` / `parse_binding_powers`
  (`pub\s+enum\s+TokenKind`, `//\s*([A-Z_ ]+)`, `#\[token\("([^"]+)"`,
  `\s*([A-Za-z][A-Za-z0-9_]*)\s*(,|=)`, `\((\d+),\s*(\d+)\)`, `=>\s*(\d+)`)
  are modelled by dedicated scanning functions.

Documents are sequences of `\n`-separated lines, matching how the script's
inputs are consumed (`str.splitlines` / `"\n".join`).
-/

abbrev Str := List Char

/-- Python's `\s` on ASCII text: space, tab, newline, carriage return,
vertical tab, form feed. -/
def isWS (c : Char) : Bool :=
  c = ' ' || c = '\t' || c = '\n' || c = '\r' || c = '\x0b' || c = '\x0c'

/-- Length of the leading whitespace run of a string (the maximal stretch a
greedy `\s*` can take from the current position). -/
def wsRun (s : Str) : Nat := (s.takeWhile isWS).length

/-- Python `$` in multiline mode at a given suffix: end of text or a newline
right here. -/
def endsLine : Str → Bool
  | [] => true
  | c :: _ => c = '\n'

/-- Substring test, i.e. Python's `needle in line`. -/
def containsSub (needle : Str) : Str → Bool
  | [] => needle.isPrefixOf []
  | s@(_ :: t) => needle.isPrefixOf s || containsSub needle t

/-- Python `str.splitlines` restricted to `\n` separators: no trailing empty
line for a trailing newline, and `splitlines "" = []`. -/
def splitAux : Str → Str → List Str
  | acc, [] => [acc.reverse]
  | acc, ['\n'] => [acc.reverse]
  | acc, '\n' :: rest => acc.reverse :: splitAux [] rest
  | acc, c :: rest => splitAux (c :: acc) rest

/-- Python `text.splitlines()` (newline separators). -/
def splitlines : Str → List Str
  | [] => []
  | s => splitAux [] s

/-- Python `"\n".join(lines)`. -/
def joinNl (lines : List Str) : Str := List.intercalate ['\n'] lines

/-- Python `str.strip()`: drop whitespace from both ends. -/
def stripWS (s : Str) : Str :=
  ((s.dropWhile isWS).reverse.dropWhile isWS).reverse

/-- Python `str.split(ch)` for a single-character separator (keeps empty
pieces, `"".split(ch) = [""]`). -/
def splitChAux (ch : Char) : Str → Str → List Str
  | acc, [] => [acc.reverse]
  | acc, c :: rest =>
    if c = ch then acc.reverse :: splitChAux ch [] rest
    else splitChAux ch (c :: acc) rest

/-- Python `s.split(ch)` for one separator character. -/
def splitOnChar (ch : Char) (s : Str) : List Str := splitChAux ch [] s

/-- Value of a decimal digit character. -/
def digitVal (c : Char) : Nat := c.toNat - 48

def isDigitC (c : Char) : Bool := '0' ≤ c && c ≤ '9'

/-- Python `int(...)` on a captured run of decimal digits. -/
def natOfDigits (ds : Str) : Nat := ds.foldl (fun a c => 10 * a + digitVal c) 0

/-- Decimal rendering of a natural number, as Python `f"{n}"`. -/
def natStr (n : Nat) : Str := (Nat.repr n).toList

/-- Lexicographic comparison of strings by code point, as Python `<` on
`str` (restricted to the code points a `Char` carries). -/
def lexLt : Str → Str → Bool
  | [], [] => false
  | [], _ :: _ => true
  | _ :: _, [] => false
  | a :: as, b :: bs => if a < b then true else if b < a then false else lexLt as bs

/-- Insert into a strictly `lexLt`-sorted list, skipping duplicates. -/
def insSorted (x : Str) : List Str → List Str
  | [] => [x]
  | y :: ys =>
    if lexLt x y then x :: y :: ys
    else if x = y then y :: ys
    else y :: insSorted x ys

/-- Python `sorted(set(l))` for string lists: the strictly ascending
enumeration of the distinct elements. -/
def sortDedup (l : List Str) : List Str := l.foldl (fun acc x => insSorted x acc) []

/-- Python `token.replace("Self::", "")`: remove every occurrence of the
`Self::` qualifier, scanning left to right. -/
def replaceSelf : Str → Str
  | [] => []
  | 'S' :: 'e' :: 'l' :: 'f' :: ':' :: ':' :: rest => replaceSelf rest
  | c :: rest => c :: replaceSelf rest

/-- Python `line.split("=>", 1)[0]`: the part of the line before the first
`=>` (the whole line when absent). -/
def takeUntilArrow : Str → Str
  | [] => []
  | '=' :: '>' :: _ => []
  | c :: rest => c :: takeUntilArrow rest

/-- First-key lookup in an association list (Python `d[k]` / `k in d`). -/
def lookupAssoc : List (Str × Str) → Str → Option Str
  | [], _ => none
  | (k0, v0) :: rest, k => if k0 = k then some v0 else lookupAssoc rest k

/-- Python dict assignment `d[k] = v`: replace in place when the key exists,
append otherwise (insertion order preserved). -/
def setAssoc : List (Str × Str) → Str → Str → List (Str × Str)
  | [], k, v => [(k, v)]
  | (k0, v0) :: rest, k, v =>
    if k0 = k then (k0, v) :: rest else (k0, v0) :: setAssoc rest k v

/-- Python `d[k] += 1` on a counter dict whose key set is fixed: bump the
value at the key, leave the list unchanged when the key is absent. -/
def bumpAssoc : List (Str × Nat) → Str → List (Str × Nat)
  | [], _ => []
  | (k0, v0) :: rest, k =>
    if k0 = k then (k0, v0 + 1) :: rest else (k0, v0) :: bumpAssoc rest k

/-- Sum of the counter values, Python `sum(d.values())`. -/
def sumVals (l : List (Str × Nat)) : Nat := (l.map Prod.snd).sum

/-- Largest `j ≤ n` with `P j`, the value a greedy, backtracking quantifier
settles on (it tries the longest extent first and shrinks one step at a
time). -/
def greatestLe (P : Nat → Bool) : Nat → Option Nat
  | 0 => if P 0 then some 0 else none
  | n + 1 => if P (n + 1) then some (n + 1) else greatestLe P n

/-- Greedy endpoint of the trailing `\s*$` of the marker pattern, relative to
the suffix right after the marker: the largest whitespace extent after which
`$` holds. -/
def trailK (rest : Str) : Option Nat :=
  greatestLe (fun k => endsLine (rest.drop k)) (wsRun rest)

/-- Attempt of `^(?P<indent>\s*)MARKER\s*$` at one anchored position, on the
suffix `s` starting there.  Returns `(a, tot)`: the length of the captured
indent and the total length of the match.  Greedy semantics: the indent takes
the largest whitespace extent that lets the rest of the pattern match, then
the trailing `\s*` takes the largest extent after which `$` holds. -/
def matchAtAnchor (M s : Str) : Option (Nat × Nat) :=
  match greatestLe
      (fun a => M.isPrefixOf (s.drop a) && (trailK (s.drop (a + M.length))).isSome)
      (wsRun s) with
  | none => none
  | some a =>
    match trailK (s.drop (a + M.length)) with
    | some k => some (a, a + M.length + k)
    | none => none

/-- Leftmost multiline-anchored search: walk the text; positions right after a
newline (and position 0) are anchors; return the first anchor where the
pattern matches, as `(start, indentLen, matchEnd)` in absolute offsets. -/
def searchAux (M : Str) : Nat → Bool → Str → Option (Nat × Nat × Nat)
  | off, anch, [] =>
    match (if anch then matchAtAnchor M [] else none) with
    | some (a, tot) => some (off, a, off + tot)
    | none => none
  | off, anch, c :: r =>
    match (if anch then matchAtAnchor M (c :: r) else none) with
    | some (a, tot) => some (off, a, off + tot)
    | none => searchAux M (off + 1) (c = '\n') r

/-- Python `re.compile(rf"(?m)^(?P<indent>\s*){re.escape(M)}\s*$").search(t)`:
leftmost match as `(start, indentLen, end)`. -/
def searchPat (M t : Str) : Option (Nat × Nat × Nat) := searchAux M 0 true t

/-- Failure taxonomy of the block splicer (the script raises `SystemExit`
with a distinct message for each case; the spec names them `MissingMarker`
and `MarkerOrderError`). -/
inductive SErr where
  | MissingMarker (marker : Str)
  | MarkerOrderError
deriving DecidableEq, Repr

/-- Re-indent one replacement line: `f"{indent}{line}" if line else indent`. -/
def indentLine (ind : Str) (ln : Str) : Str := if ln = [] then ind else ind ++ ln

/-- The re-indented replacement body built by `replace_block`. -/
def indentRepl (ind : Str) (repl : Str) : Str :=
  joinNl ((splitlines repl).map (indentLine ind))

/-- The script's `replace_block(text, start_marker, end_marker, replacement)`:
locate both marker lines with the anchored pattern, fail when one is missing
or when the end match does not start strictly after the start match ends,
otherwise splice `text[:start.end] + "\n" + re-indented replacement + "\n" +
text[end.start:]`. -/
def replace_block (text startM endM repl : Str) : Except SErr Str :=
  match searchPat startM text with
  | none => .error (.MissingMarker startM)
  | some (p1, a1, e1) =>
    match searchPat endM text with
    | none => .error (.MissingMarker endM)
    | some (p2, _, _) =>
      if p2 ≤ e1 then .error .MarkerOrderError
      else
        let ind := (text.drop p1).take a1
        .ok (text.take e1 ++ '\n' :: (indentRepl ind repl ++ '\n' :: text.drop p2))

/-! ## Token taxonomy scanner (`parse_tokenkind`) -/

/-- The script's `SECTION_MAP`, in insertion order. -/
def SECTION_MAP : List (Str × Str) :=
  [("TRIVIA".toList, "Trivia".toList),
   ("PUNCTUATION".toList, "Punctuation".toList),
   ("OPERATORS".toList, "Operators".toList),
   ("KEYWORDS".toList, "Keywords".toList),
   ("LITERALS".toList, "Literals".toList),
   ("IDENTIFIERS".toList, "Identifiers".toList),
   ("SPECIAL".toList, "Special".toList)]

/-- The section names, i.e. `SECTION_MAP.values()` in order. -/
def sectionNames : List Str := SECTION_MAP.map Prod.snd

def isUpperAZ (c : Char) : Bool := 'A' ≤ c && c ≤ 'Z'

def isAlphaAZ (c : Char) : Bool := isUpperAZ c || ('a' ≤ c && c ≤ 'z')

def isIdentC (c : Char) : Bool := isAlphaAZ c || isDigitC c || c = '_'

/-- Character class `[A-Z_ ]` of the section-header pattern. -/
def isHdrC (c : Char) : Bool := isUpperAZ c || c = '_' || c = ' '

/-- Match of `pub\s+enum\s+TokenKind` starting exactly here. -/
def pubEnumAt (s : Str) : Bool :=
  "pub".toList.isPrefixOf s &&
    (let r1 := s.drop 3
     let w1 := wsRun r1
     decide (1 ≤ w1) &&
       ("enum".toList.isPrefixOf (r1.drop w1) &&
         (let r2 := (r1.drop w1).drop 4
          let w2 := wsRun r2
          decide (1 ≤ w2) && "TokenKind".toList.isPrefixOf (r2.drop w2))))

/-- `re.search(r"pub\s+enum\s+TokenKind", line)` as a Boolean. -/
def hasPubEnum : Str → Bool
  | [] => false
  | s@(_ :: t) => pubEnumAt s || hasPubEnum t

/-- `line.strip().startswith("}")`. -/
def stripStartsBrace (s : Str) : Bool :=
  match s.dropWhile isWS with
  | '\x7d' :: _ => true
  | _ => false

/-- Match of `//\s*([A-Z_ ]+)` starting at this `//`: the greedy `\s*`
backtracks until a `[A-Z_ ]` character starts the group (a space is in both
classes, so the group can begin inside the whitespace run).  Returns the
captured group. -/
def secHdrAt (s : Str) : Option Str :=
  if "//".toList.isPrefixOf s then
    let r := s.drop 2
    match greatestLe
        (fun w => match r.drop w with
          | c :: _ => isHdrC c
          | [] => false)
        (wsRun r) with
    | some w => some ((r.drop w).takeWhile isHdrC)
    | none => none
  else none

/-- `re.search(r"//\s*([A-Z_ ]+)", line)`: leftmost position where the full
pattern matches, returning group 1. -/
def findSecHdr : Str → Option Str
  | [] => none
  | s@(_ :: t) =>
    match secHdrAt s with
    | some g => some g
    | none => findSecHdr t

/-- The loop `for key, value in SECTION_MAP.items(): if key in header:
section = value; break` — first key that is a substring of the stripped
header. -/
def secFromHeader (header : Str) : Option Str :=
  (SECTION_MAP.find? (fun kv => containsSub kv.1 header)).map Prod.snd

/-- Match of `#\[token\("([^"]+)"` starting exactly here: the literal opener
followed by a nonempty run of non-quote characters and a closing quote. -/
def tokenLitAt (s : Str) : Option Str :=
  if "#[token(\"".toList.isPrefixOf s then
    let r := s.drop 9
    let lit := r.takeWhile (fun c => c ≠ '"')
    if lit ≠ [] && "\"".toList.isPrefixOf (r.drop lit.length) then some lit else none
  else none

/-- `re.search(r"#\[token\(\"([^\"]+)\"", line)`: leftmost full match,
returning the captured literal. -/
def findTokenLit : Str → Option Str
  | [] => none
  | s@(_ :: t) =>
    match tokenLitAt s with
    | some lit => some lit
    | none => findTokenLit t

/-- `re.match(r"\s*([A-Za-z][A-Za-z0-9_]*)\s*(,|=)", line)`: anchored at the
start of the line — leading whitespace, an identifier, optional whitespace,
then a comma or equals sign.  Returns the identifier. -/
def variantOf (s : Str) : Option Str :=
  let r := s.dropWhile isWS
  match r with
  | c :: _ =>
    if isAlphaAZ c then
      let iden := c :: (r.drop 1).takeWhile isIdentC
      match (r.drop iden.length).dropWhile isWS with
      | ',' :: _ => some iden
      | '=' :: _ => some iden
      | _ => none
    else none
  | [] => none

/-- Result record of the taxonomy scan (the script's `TokenStats`
dataclass); `by_section` keeps the dict's key insertion order. -/
structure TokenStats where
  total : Nat
  by_section : List (Str × Nat)
  keywords : List Str
  variant_to_literal : List (Str × Str)
deriving DecidableEq, Repr

/-- Mutable state of the `parse_tokenkind` line loop.  `done` records that
the `break` on the closing brace has fired. -/
structure TKState where
  inEnum : Bool
  done : Bool
  curSec : Option Str
  bySec : List (Str × Nat)
  total : Nat
  pending : Option Str
  v2l : List (Str × Str)
  kwLits : List Str
deriving DecidableEq, Repr

/-- Initial state: `by_section` zero-filled over `SECTION_MAP.values()`. -/
def tkInit : TKState :=
  { inEnum := false, done := false, curSec := none
    bySec := sectionNames.map (fun n => (n, 0))
    total := 0, pending := none, v2l := [], kwLits := [] }

/-- Section-header handling of one line: when the header pattern matches and
the stripped group contains a known key, update the sticky current section. -/
def applySecHdr (st : TKState) (line : Str) : TKState :=
  match findSecHdr line with
  | some g =>
    match secFromHeader (stripWS g) with
    | some v => { st with curSec := some v }
    | none => st
  | none => st

/-- Variant handling of one line: count it, attribute it to the active
section, and consume a pending literal (recording keyword literals for
`Kw`-prefixed identifiers). -/
def countVariant (st : TKState) (name : Str) : TKState :=
  let st1 := { st with total := st.total + 1 }
  let st2 :=
    match st1.curSec with
    | some sec => { st1 with bySec := bumpAssoc st1.bySec sec }
    | none => st1
  match st2.pending with
  | some lit =>
    let st3 := { st2 with v2l := setAssoc st2.v2l name lit, pending := none }
    if "Kw".toList.isPrefixOf name then { st3 with kwLits := st3.kwLits ++ [lit] }
    else st3
  | none => st2

/-- One iteration of the `parse_tokenkind` line loop. -/
def tkStep (st : TKState) (line : Str) : TKState :=
  if st.done then st
  else if !st.inEnum then
    (if hasPubEnum line then { st with inEnum := true } else st)
  else if stripStartsBrace line then { st with done := true }
  else
    let st1 := applySecHdr st line
    match findTokenLit line with
    | some lit => { st1 with pending := some lit }
    | none =>
      match variantOf line with
      | some name => countVariant st1 name
      | none => st1

/-- Full line scan of `parse_tokenkind` (state after the loop). -/
def tkScan (text : Str) : TKState := (splitlines text).foldl tkStep tkInit

/-- The script's `parse_tokenkind`, as a function of the token file's text. -/
def parse_tokenkind (text : Str) : TokenStats :=
  let st := tkScan text
  { total := st.total, by_section := st.bySec
    keywords := sortDedup st.kwLits, variant_to_literal := st.v2l }

/-! ## Precedence table scanner (`parse_binding_powers`) -/

/-- Match of `\((\d+),\s*(\d+)\)` starting exactly here. -/
def pairParenAt (s : Str) : Option (Nat × Nat) :=
  match s with
  | '(' :: r =>
    let d1 := r.takeWhile isDigitC
    if d1 = [] then none
    else
      match r.drop d1.length with
      | ',' :: r2 =>
        let r3 := r2.drop (wsRun r2)
        let d2 := r3.takeWhile isDigitC
        if d2 = [] then none
        else
          match r3.drop d2.length with
          | ')' :: _ => some (natOfDigits d1, natOfDigits d2)
          | _ => none
      | _ => none
  | _ => none

/-- `re.search(r"\((\d+),\s*(\d+)\)", line)`: leftmost full match. -/
def findPairParen : Str → Option (Nat × Nat)
  | [] => none
  | s@(_ :: t) =>
    match pairParenAt s with
    | some p => some p
    | none => findPairParen t

/-- Match of `=>\s*(\d+)` starting exactly here. -/
def arrowNumAt (s : Str) : Option Nat :=
  match s with
  | '=' :: '>' :: r =>
    let r1 := r.drop (wsRun r)
    let d := r1.takeWhile isDigitC
    if d = [] then none else some (natOfDigits d)
  | _ => none

/-- `re.search(r"=>\s*(\d+)", line)`: leftmost full match. -/
def findArrowNum : Str → Option Nat
  | [] => none
  | s@(_ :: t) =>
    match arrowNumAt s with
    | some n => some n
    | none => findArrowNum t

/-- The variant-name list of a match arm: split the text before the first
`=>` on `|`, strip each piece, keep the nonempty ones, remove `Self::`
qualifiers. -/
def armNames (line : Str) : List Str :=
  (((splitOnChar '|' (takeUntilArrow line)).map stripWS).filter
    (fun t => t ≠ [])).map replaceSelf

/-- Mutable state of the `parse_binding_powers` line loop: the two mode
flags and the accumulated entry lists.  `ixEntries` are the infix
`(left bp, right bp, names)` tuples, `pxEntries` the prefix `(bp, names)`
tuples, in scan order. -/
structure BPState where
  inIx : Bool
  inPx : Bool
  ixEntries : List (Nat × Nat × List Str)
  pxEntries : List (Nat × List Str)
deriving DecidableEq, Repr

def bpInit : BPState := { inIx := false, inPx := false, ixEntries := [], pxEntries := [] }

/-- The two fixed mode-marker phrases. -/
def fnIxMark : Str := "fn infix_binding_power".toList

def fnPxMark : Str := "fn prefix_binding_power".toList

def arrowSub : Str := "=>".toList

def wildArrowSub : Str := "_ =>".toList

/-- One iteration of the `parse_binding_powers` line loop. -/
def bpStep (st : BPState) (line : Str) : BPState :=
  if containsSub fnIxMark line then { st with inIx := true }
  else if containsSub fnPxMark line then { st with inIx := false, inPx := true }
  else if st.inIx then
    (if !containsSub arrowSub line then st
     else if containsSub wildArrowSub line then st
     else
       match findPairParen line with
       | none => st
       | some (l, r) => { st with ixEntries := st.ixEntries ++ [(l, r, armNames line)] })
  else if st.inPx then
    (if !containsSub arrowSub line then st
     else if containsSub wildArrowSub line then st
     else
       match findArrowNum line with
       | none => st
       | some bp => { st with pxEntries := st.pxEntries ++ [(bp, armNames line)] })
  else st

/-- Full line scan of `parse_binding_powers`. -/
def bpScan (text : Str) : BPState := (splitlines text).foldl bpStep bpInit

/-- The script's nested `display(name)`: literal spelling when known, else
strip a `Kw` prefix and upper-case the remainder, else the name itself. -/
def display (v2l : List (Str × Str)) (name : Str) : Str :=
  match lookupAssoc v2l name with
  | some lit => lit
  | none =>
    if "Kw".toList.isPrefixOf name then (name.drop 2).map Char.toUpper
    else name

/-- Stable insertion by left binding power: a new entry goes after every
entry whose key is less than or equal to its own, as Python's stable
`list.sort(key=lambda item: item[0])`. -/
def insIx (x : Nat × Nat × List Str) : List (Nat × Nat × List Str) → List (Nat × Nat × List Str)
  | [] => [x]
  | y :: ys => if y.1 ≤ x.1 then y :: insIx x ys else x :: y :: ys

/-- `infix_entries.sort(key=lambda item: item[0])` — stable sort ascending
by left binding power. -/
def sortIx (l : List (Nat × Nat × List Str)) : List (Nat × Nat × List Str) :=
  l.foldl (fun acc x => insIx x acc) []

/-- Python `", ".join(...)`. -/
def commaJoin (l : List Str) : Str := List.intercalate ", ".toList l

/-- Rendered infix line `f"{l_bp}-{r_bp}:   {tokens}{suffix}"` with the
right-associativity annotation exactly when `l_bp > r_bp`. -/
def renderIxLine (v2l : List (Str × Str)) (e : Nat × Nat × List Str) : Str :=
  natStr e.1 ++ "-".toList ++ natStr e.2.1 ++ ":   ".toList ++
    commaJoin (e.2.2.map (display v2l)) ++
    (if e.2.1 < e.1 then " (right assoc)".toList else [])

/-- Rendered prefix line `f"{bp}:    prefix {tokens}"`. -/
def renderPxLine (v2l : List (Str × Str)) (e : Nat × List Str) : Str :=
  natStr e.1 ++ ":    prefix ".toList ++ commaJoin (e.2.map (display v2l))

/-- The header line of the precedence block. -/
def precHeader : Str := "Precedence (low → high):".toList

/-- The script's `parse_binding_powers`: scan, sort the infix entries by left
binding power (stable), render both blocks. -/
def parse_binding_powers (text : Str) (v2l : List (Str × Str)) : List Str × List Str :=
  let st := bpScan text
  (precHeader :: (sortIx st.ixEntries).map (renderIxLine v2l),
   st.pxEntries.map (renderPxLine v2l))

/-! ## Main pipeline (diagram splice gating) -/

/-- Marker literals of the token-stats region. -/
def tsStartMark : Str := "<<TOKEN_STATS>>".toList

def tsEndMark : Str := "<<TOKEN_STATS_END>>".toList

/-- Marker literals of the precedence region. -/
def ptStartMark : Str := "<<PRECEDENCE_TABLE>>".toList

def ptEndMark : Str := "<<PRECEDENCE_TABLE_END>>".toList

/-- Counter lookup with default 0 (the script indexes `by_section` directly;
its keys always hold all section names). -/
def secCount (stats : TokenStats) (name : Str) : Nat :=
  match stats.by_section.find? (fun kv => kv.1 = name) with
  | some kv => kv.2
  | none => 0

/-- The `token_lines` list built in `main`. -/
def token_lines (stats : TokenStats) : List Str :=
  ["TokenKind variants: ".toList ++ natStr stats.total,
   "Sections:".toList,
   "• Trivia: ".toList ++ natStr (secCount stats "Trivia".toList),
   "• Punctuation: ".toList ++ natStr (secCount stats "Punctuation".toList),
   "• Operators: ".toList ++ natStr (secCount stats "Operators".toList),
   "• Keywords: ".toList ++ natStr (secCount stats "Keywords".toList),
   "• Literals: ".toList ++ natStr (secCount stats "Literals".toList),
   "• Identifiers: ".toList ++ natStr (secCount stats "Identifiers".toList),
   "• Special: ".toList ++ natStr (secCount stats "Special".toList),
   [],
   "Keywords (".toList ++ natStr stats.keywords.length ++
     ") in docs/diagrams/generated/syntax-stats.md".toList]

/-- The `precedence_lines` list built in `main` (`infix + prefix`). -/
def precedence_lines (text : Str) (v2l : List (Str × Str)) : List Str :=
  (parse_binding_powers text v2l).1 ++ (parse_binding_powers text v2l).2

/-- The diagram-update portion of `main`: parse the token file, splice the
token-stats region, then the precedence region.  A raised `SystemExit`
propagates, so the result is the new document text only when both splices
succeed. -/
def mainPuml (tokensText pumlText : Str) : Except SErr Str :=
  let stats := parse_tokenkind tokensText
  match replace_block pumlText tsStartMark tsEndMark (joinNl (token_lines stats)) with
  | .error e => .error e
  | .ok p1 =>
    match replace_block p1 ptStartMark ptEndMark
        (joinNl (precedence_lines tokensText stats.variant_to_literal)) with
    | .error e => .error e
    | .ok p2 => .ok p2

/-- Content of the diagram file after a run: `PUML.write_text` executes only
after both `replace_block` calls return, so a failure leaves the original
content. -/
def pumlFileAfter (tokensText pumlText : Str) : Str :=
  match mainPuml tokensText pumlText with
  | .ok p => p
  | .error _ => pumlText

/-! ## Basic lemmas -/

theorem isPrefixOf_iff (M : Str) : ∀ s : Str, M.isPrefixOf s = true ↔ ∃ t, s = M ++ t := by
  induction M with
  | nil => intro s; simp [List.isPrefixOf]
  | cons a as ih =>
    intro s
    cases s with
    | nil => simp [List.isPrefixOf]
    | cons b bs =>
      simp only [List.isPrefixOf, Bool.and_eq_true, beq_iff_eq, ih bs, List.cons_append]
      constructor
      · rintro ⟨rfl, t, rfl⟩; exact ⟨t, rfl⟩
      · rintro ⟨t, h⟩
        injection h with h1 h2
        exact ⟨h1.symm, t, h2⟩

theorem isPrefixOf_append (M t : Str) : M.isPrefixOf (M ++ t) = true :=
  (isPrefixOf_iff M (M ++ t)).mpr ⟨t, rfl⟩

theorem containsSub_of_isPrefixOf (M s : Str) (h : M.isPrefixOf s = true) :
    containsSub M s = true := by
  cases s with
  | nil => simpa [containsSub] using h
  | cons c t => simp [containsSub, h]

theorem containsSub_of_parts (E x y : Str) : containsSub E (x ++ (E ++ y)) = true := by
  induction x with
  | nil => exact containsSub_of_isPrefixOf _ _ (isPrefixOf_append E y)
  | cons c xs ih => simp [containsSub, ih]

theorem wsRun_cons_ws (c : Char) (r : Str) (h : isWS c = true) :
    wsRun (c :: r) = wsRun r + 1 := by
  simp [wsRun, List.takeWhile_cons, h, Nat.add_comm]

theorem wsRun_cons_not (c : Char) (r : Str) (h : isWS c = false) : wsRun (c :: r) = 0 := by
  simp [wsRun, List.takeWhile_cons, h]

theorem wsRun_le_length (s : Str) : wsRun s ≤ s.length := by
  induction s with
  | nil => simp [wsRun]
  | cons a r ih =>
    by_cases ha : isWS a = true
    · rw [wsRun_cons_ws _ _ ha]; simpa using ih
    · rw [wsRun_cons_not _ _ (by simpa using ha)]; simp

theorem wsRun_append_ws (w rest : Str) (hw : ∀ c ∈ w, isWS c = true) :
    wsRun (w ++ rest) = w.length + wsRun rest := by
  induction w with
  | nil => simp
  | cons c t ih =>
    have hc : isWS c = true := hw c (List.mem_cons_self c t)
    have ht : ∀ c ∈ t, isWS c = true := fun x hx => hw x (List.mem_cons_of_mem c hx)
    simp [List.cons_append, wsRun_cons_ws _ _ hc, ih ht]
    omega

theorem allWS_take_of_le_wsRun (s : Str) : ∀ j, j ≤ wsRun s → ∀ c ∈ s.take j, isWS c = true := by
  induction s with
  | nil => intro j _ c hc; simp at hc
  | cons a r ih =>
    intro j hj c hc
    cases j with
    | zero => simp at hc
    | succ k =>
      by_cases ha : isWS a = true
      · rw [wsRun_cons_ws _ _ ha] at hj
        simp only [List.take_succ_cons, List.mem_cons] at hc
        rcases hc with rfl | hc
        · exact ha
        · exact ih k (by omega) c hc
      · rw [wsRun_cons_not _ _ (by simpa using ha)] at hj; omega

theorem takeWhile_head_not (s : Str) (h : wsRun s < s.length) :
    ∃ c rest, s.drop (wsRun s) = c :: rest ∧ isWS c = false := by
  induction s with
  | nil => simp at h
  | cons a r ih =>
    by_cases ha : isWS a = true
    · rw [wsRun_cons_ws _ _ ha] at h ⊢
      have := ih (by simpa using Nat.lt_of_succ_lt_succ h)
      simpa using this
    · refine ⟨a, r, ?_, by simpa using ha⟩
      rw [wsRun_cons_not _ _ (by simpa using ha)]
      simp

theorem greatestLe_some_P {P : Nat → Bool} : ∀ {n a : Nat}, greatestLe P n = some a → P a = true := by
  intro n
  induction n with
  | zero =>
    intro a h
    by_cases hp : P 0 = true
    · simp [greatestLe, hp] at h; subst h; exact hp
    · simp [greatestLe, Bool.eq_false_iff.mpr hp] at h
  | succ k ih =>
    intro a h
    by_cases hp : P (k + 1) = true
    · simp [greatestLe, hp] at h; subst h; exact hp
    · rw [greatestLe, if_neg (by simpa using hp)] at h
      exact ih h

theorem greatestLe_some_le {P : Nat → Bool} : ∀ {n a : Nat}, greatestLe P n = some a → a ≤ n := by
  intro n
  induction n with
  | zero =>
    intro a h
    by_cases hp : P 0 = true
    · simp [greatestLe, hp] at h; omega
    · simp [greatestLe, Bool.eq_false_iff.mpr hp] at h
  | succ k ih =>
    intro a h
    by_cases hp : P (k + 1) = true
    · simp [greatestLe, hp] at h; omega
    · rw [greatestLe, if_neg (by simpa using hp)] at h
      exact Nat.le_succ_of_le (ih h)

theorem greatestLe_some_max {P : Nat → Bool} :
    ∀ {n a : Nat}, greatestLe P n = some a → ∀ j, j ≤ n → P j = true → j ≤ a := by
  intro n
  induction n with
  | zero =>
    intro a h j hj _
    omega
  | succ k ih =>
    intro a h j hj hpj
    by_cases hp : P (k + 1) = true
    · simp [greatestLe, hp] at h; omega
    · rw [greatestLe, if_neg (by simpa using hp)] at h
      have hjk : j ≤ k := by
        rcases Nat.lt_or_ge j (k + 1) with h1 | h1
        · omega
        · exfalso
          have : j = k + 1 := by omega
          subst this
          exact hp hpj
      exact ih h j hjk hpj

theorem greatestLe_eq_some {P : Nat → Bool} :
    ∀ {n a : Nat}, a ≤ n → P a = true → (∀ j, j ≤ n → P j = true → j ≤ a) →
      greatestLe P n = some a := by
  intro n
  induction n with
  | zero =>
    intro a ha hp _
    have : a = 0 := by omega
    subst this
    simp [greatestLe, hp]
  | succ k ih =>
    intro a ha hp hmax
    by_cases h1 : a = k + 1
    · subst h1; simp [greatestLe, hp]
    · have hak : a ≤ k := by omega
      have hnk : P (k + 1) = false := by
        by_contra hc
        have := hmax (k + 1) (Nat.le_refl _) (by simpa using hc)
        omega
      rw [greatestLe, if_neg (by simp [hnk])]
      exact ih hak hp (fun j hj hpj => hmax j (Nat.le_succ_of_le hj) hpj)

theorem greatestLe_isSome {P : Nat → Bool} {n j : Nat} (hj : j ≤ n) (hP : P j = true) :
    (greatestLe P n).isSome = true := by
  induction n with
  | zero =>
    have : j = 0 := by omega
    subst this
    simp [greatestLe, hP]
  | succ k ih =>
    by_cases hp : P (k + 1) = true
    · simp [greatestLe, hp]
    · rw [greatestLe, if_neg (by simpa using hp)]
      have hjk : j ≤ k := by
        rcases Nat.lt_or_ge j (k + 1) with h1 | h1
        · omega
        · exfalso; have : j = k + 1 := by omega
          subst this; exact hp hP
      exact ih hjk

/-! ## Characterization of the anchored pattern matcher -/

/-- A decomposition `pre` is a legal `^` anchor point relative to the mode
flag: the very start (when the flag allows it) or right after a newline. -/
def preAnchor (anch : Bool) (pre : Str) : Prop :=
  (pre = [] ∧ anch = true) ∨ ∃ q, pre = q ++ ['\n']

/-- Anchor condition for a whole-text search (`^` with `re.M`). -/
def anchorOK (pre : Str) : Prop := pre = [] ∨ ∃ q, pre = q ++ ['\n']

theorem preAnchor_true_iff (pre : Str) : preAnchor true pre ↔ anchorOK pre := by
  unfold preAnchor anchorOK
  constructor
  · rintro (⟨h, -⟩ | h)
    · exact Or.inl h
    · exact Or.inr h
  · rintro (h | h)
    · exact Or.inl ⟨h, rfl⟩
    · exact Or.inr h

theorem preAnchor_cons (anch : Bool) (c : Char) (q : Str) :
    preAnchor anch (c :: q) ↔ preAnchor (decide (c = '\n')) q := by
  unfold preAnchor
  constructor
  · rintro (⟨h, -⟩ | ⟨q', hq⟩)
    · exact absurd h (by simp)
    · cases q' with
      | nil =>
        simp at hq
        exact Or.inl ⟨hq.2.symm ▸ rfl, by simp [hq.1]⟩
      | cons d q'' =>
        simp only [List.cons_append, List.cons.injEq] at hq
        exact Or.inr ⟨q'', hq.2⟩
  · rintro (⟨rfl, h⟩ | ⟨q', rfl⟩)
    · have : c = '\n' := by simpa using h
      exact Or.inr ⟨[], by simp [this]⟩
    · exact Or.inr ⟨c :: q', by simp⟩

theorem trailK_spec {rest : Str} {k : Nat} (h : trailK rest = some k) :
    k ≤ wsRun rest ∧ endsLine (rest.drop k) = true ∧
      ∀ j, j ≤ wsRun rest → endsLine (rest.drop j) = true → j ≤ k :=
  ⟨greatestLe_some_le h, greatestLe_some_P h, greatestLe_some_max h⟩

theorem trailK_eq {rest : Str} {k : Nat} (hk : k ≤ wsRun rest)
    (he : endsLine (rest.drop k) = true)
    (hmax : ∀ j, j ≤ wsRun rest → endsLine (rest.drop j) = true → j ≤ k) :
    trailK rest = some k :=
  greatestLe_eq_some hk he hmax

theorem trailK_isSome {rest : Str} {k : Nat} (hk : k ≤ wsRun rest)
    (he : endsLine (rest.drop k) = true) : (trailK rest).isSome = true :=
  greatestLe_isSome hk he

/-- Soundness: a successful anchored match decomposes the suffix into
whitespace indent, the marker, trailing whitespace, and a rest at which `$`
holds; the trailing extent is the greedy maximum. -/
theorem MA_sound {M s : Str} {a tot : Nat} (h : matchAtAnchor M s = some (a, tot)) :
    ∃ w u v : Str, s = w ++ (M ++ (u ++ v)) ∧ w.length = a ∧
      (∀ c ∈ w, isWS c = true) ∧ (∀ c ∈ u, isWS c = true) ∧
      endsLine v = true ∧ tot = a + M.length + u.length ∧
      a ≤ wsRun s ∧
      (∀ j, j ≤ wsRun (u ++ v) → endsLine ((u ++ v).drop j) = true → j ≤ u.length) := by
  unfold matchAtAnchor at h
  split at h
  · exact absurd h (by simp)
  rename_i a' hg
  split at h
  swap
  · exact absurd h (by simp)
  rename_i k ht
  simp only [Option.some.injEq, Prod.mk.injEq] at h
  obtain ⟨rfl, rfl⟩ := h
  have hP := greatestLe_some_P hg
  have ha' : a' ≤ wsRun s := greatestLe_some_le hg
  simp only [Bool.and_eq_true] at hP
  obtain ⟨hpre, -⟩ := hP
  obtain ⟨rest, hrest⟩ := (isPrefixOf_iff M (s.drop a')).mp hpre
  obtain ⟨hk1, hk2, hk3⟩ := trailK_spec ht
  have hsplit : s = s.take a' ++ s.drop a' := (List.take_append_drop a' s).symm
  have hdrop2 : s.drop (a' + M.length) = rest := by
    have : s.drop (a' + M.length) = (s.drop a').drop M.length := by
      rw [List.drop_drop]
    rw [this, hrest, List.drop_left]
  rw [hdrop2] at hk1 hk2 hk3
  refine ⟨s.take a', rest.take k, rest.drop k, ?_, ?_, ?_, ?_, ?_, ?_, ha', ?_⟩
  · rw [List.take_append_drop k rest]
    nth_rewrite 1 [hsplit]
    rw [hrest]
  · have : a' ≤ s.length := le_trans ha' (wsRun_le_length s)
    simp [List.length_take, this]
  · exact allWS_take_of_le_wsRun s a' ha'
  · exact allWS_take_of_le_wsRun rest k hk1
  · exact hk2
  · have hkr : k ≤ rest.length := le_trans hk1 (wsRun_le_length rest)
    simp [List.length_take, hkr]
  · have hkr : k ≤ rest.length := le_trans hk1 (wsRun_le_length rest)
    rw [List.take_append_drop k rest]
    intro j h1 h2
    have h3 := hk3 j h1 h2
    simp only [List.length_take]
    omega

/-- Construction: on a suffix with the decomposed shape, the matcher
returns exactly the decomposition's extents (needs a nonempty marker that
starts with a non-whitespace character, so the indent is forced). -/
theorem MA_eq (M w u v : Str) (m0 : Char) (Mrest : Str) (hM : M = m0 :: Mrest)
    (hm0 : isWS m0 = false)
    (hw : ∀ c ∈ w, isWS c = true) (hu : ∀ c ∈ u, isWS c = true)
    (hv : endsLine v = true)
    (hmax : ∀ j, j ≤ wsRun (u ++ v) → endsLine ((u ++ v).drop j) = true → j ≤ u.length) :
    matchAtAnchor M (w ++ (M ++ (u ++ v))) = some (w.length, w.length + M.length + u.length) := by
  have hws : wsRun (w ++ (M ++ (u ++ v))) = w.length := by
    rw [wsRun_append_ws w _ hw, hM, List.cons_append, wsRun_cons_not _ _ hm0]
    omega
  have hdropw : (w ++ (M ++ (u ++ v))).drop w.length = M ++ (u ++ v) := List.drop_left w _
  have hdropwM : (w ++ (M ++ (u ++ v))).drop (w.length + M.length) = u ++ v := by
    rw [← List.drop_drop, hdropw, List.drop_left]
  have htr : trailK (u ++ v) = some u.length := by
    refine trailK_eq ?_ ?_ hmax
    · rw [wsRun_append_ws u v hu]; omega
    · rw [List.drop_left]; exact hv
  have hP : (M.isPrefixOf ((w ++ (M ++ (u ++ v))).drop w.length) &&
      (trailK ((w ++ (M ++ (u ++ v))).drop (w.length + M.length))).isSome) = true := by
    rw [hdropw, hdropwM, htr]
    simp [isPrefixOf_append]
  unfold matchAtAnchor
  rw [hws]
  rw [greatestLe_eq_some (le_refl _) hP (fun j hj _ => hj)]
  simp only [hdropwM, htr]

/-- Existence: any decomposed configuration at an anchor makes the matcher
succeed (with possibly different greedy extents). -/
theorem MA_isSome (M w u v : Str) (hw : ∀ c ∈ w, isWS c = true)
    (hu : ∀ c ∈ u, isWS c = true) (hv : endsLine v = true) :
    (matchAtAnchor M (w ++ (M ++ (u ++ v)))).isSome = true := by
  have hdropw : (w ++ (M ++ (u ++ v))).drop w.length = M ++ (u ++ v) := List.drop_left w _
  have hdropwM : (w ++ (M ++ (u ++ v))).drop (w.length + M.length) = u ++ v := by
    rw [← List.drop_drop, hdropw, List.drop_left]
  have htr : (trailK ((w ++ (M ++ (u ++ v))).drop (w.length + M.length))).isSome = true := by
    rw [hdropwM]
    refine trailK_isSome (k := u.length) ?_ ?_
    · rw [wsRun_append_ws u v hu]; omega
    · rw [List.drop_left]; exact hv
  have hP : (M.isPrefixOf ((w ++ (M ++ (u ++ v))).drop w.length) &&
      (trailK ((w ++ (M ++ (u ++ v))).drop (w.length + M.length))).isSome) = true := by
    rw [hdropw]
    simp only [htr, isPrefixOf_append, Bool.and_true]
  have hwle : w.length ≤ wsRun (w ++ (M ++ (u ++ v))) := by
    rw [wsRun_append_ws w _ hw]; omega
  have hg : (greatestLe
      (fun a => M.isPrefixOf ((w ++ (M ++ (u ++ v))).drop a) &&
        (trailK ((w ++ (M ++ (u ++ v))).drop (a + M.length))).isSome)
      (wsRun (w ++ (M ++ (u ++ v))))).isSome = true := greatestLe_isSome hwle hP
  unfold matchAtAnchor
  split
  · rename_i hgg
    rw [hgg] at hg; simp at hg
  · rename_i a' hgg
    split
    · simp
    · rename_i ht
      have hPa := greatestLe_some_P hgg
      simp only [Bool.and_eq_true] at hPa
      rw [ht] at hPa
      simp at hPa

/-- Soundness of the leftmost search: a hit decomposes the text at an
anchored position where the single-position matcher succeeds. -/
theorem SA_sound {M : Str} :
    ∀ (s : Str) (off : Nat) (anch : Bool) (p a e : Nat),
      searchAux M off anch s = some (p, a, e) →
      ∃ pre suf tot, s = pre ++ suf ∧ p = off + pre.length ∧ e = p + tot ∧
        preAnchor anch pre ∧ matchAtAnchor M suf = some (a, tot) := by
  intro s
  induction s with
  | nil =>
    intro off anch p a e h
    cases anch with
    | false => simp [searchAux] at h
    | true =>
      simp only [searchAux, if_true] at h
      rcases hm : matchAtAnchor M [] with _ | ⟨a0, t0⟩
      · rw [hm] at h; simp at h
      · rw [hm] at h
        simp only [Option.some.injEq, Prod.mk.injEq] at h
        obtain ⟨rfl, rfl, rfl⟩ := h
        exact ⟨[], [], t0, by simp, by simp, rfl, Or.inl ⟨rfl, rfl⟩, hm⟩
  | cons c r ih =>
    intro off anch p a e h
    rcases hm : (if anch then matchAtAnchor M (c :: r) else none) with _ | ⟨a0, t0⟩
    · rw [searchAux, hm] at h
      obtain ⟨pre, suf, tot, h1, h2, h3, h4, h5⟩ := ih (off + 1) (c = '\n') p a e h
      refine ⟨c :: pre, suf, tot, by simp [h1], by simp [h2]; omega, h3, ?_, h5⟩
      exact (preAnchor_cons anch c pre).mpr h4
    · rw [searchAux, hm] at h
      simp only [Option.some.injEq, Prod.mk.injEq] at h
      obtain ⟨rfl, rfl, rfl⟩ := h
      have hanch : anch = true := by
        by_contra hc
        rw [if_neg (by simpa using hc)] at hm
        exact absurd hm (by simp)
      rw [hanch, if_pos rfl] at hm
      exact ⟨[], c :: r, t0, by simp, by simp, rfl, Or.inl ⟨rfl, hanch⟩, hm⟩

/-- Leftmostness: at every anchored decomposition strictly before a hit, the
single-position matcher fails. -/
theorem SA_leftmost {M : Str} :
    ∀ (s : Str) (off : Nat) (anch : Bool) (p a e : Nat),
      searchAux M off anch s = some (p, a, e) →
      ∀ pre' suf', s = pre' ++ suf' → preAnchor anch pre' →
        off + pre'.length < p → matchAtAnchor M suf' = none := by
  intro s
  induction s with
  | nil =>
    intro off anch p a e h pre' suf' h1 h2 h3
    cases anch with
    | false => simp [searchAux] at h
    | true =>
      simp only [searchAux, if_true] at h
      rcases hm : matchAtAnchor M [] with _ | ⟨a0, t0⟩
      · rw [hm] at h; simp at h
      · rw [hm] at h
        simp only [Option.some.injEq, Prod.mk.injEq] at h
        obtain ⟨rfl, -, -⟩ := h
        omega
  | cons c r ih =>
    intro off anch p a e h pre' suf' h1 h2 h3
    rcases hm : (if anch then matchAtAnchor M (c :: r) else none) with _ | ⟨a0, t0⟩
    · rw [searchAux, hm] at h
      cases pre' with
      | nil =>
        rcases h2 with ⟨-, hat⟩ | ⟨q, hq⟩
        · rw [hat, if_pos rfl] at hm
          simp at h1
          rw [← h1]
          exact hm
        · exact absurd hq (by simp)
      | cons d q =>
        rw [List.cons_append] at h1
        injection h1 with hcd hr
        subst hcd
        refine ih (off + 1) (c = '\n') p a e h q suf' hr ?_ ?_
        · exact (preAnchor_cons anch c q).mp h2
        · simp at h3; omega
    · rw [searchAux, hm] at h
      simp only [Option.some.injEq, Prod.mk.injEq] at h
      obtain ⟨rfl, -, -⟩ := h
      omega

/-- Completeness: an anchored decomposition at which the matcher succeeds,
all of whose strictly earlier anchored decompositions fail, is the search
result. -/
theorem SA_found {M : Str} :
    ∀ (pre : Str) (s suf : Str) (off : Nat) (anch : Bool) (a tot : Nat),
      s = pre ++ suf → preAnchor anch pre → matchAtAnchor M suf = some (a, tot) →
      (∀ pre' suf', s = pre' ++ suf' → preAnchor anch pre' →
        pre'.length < pre.length → matchAtAnchor M suf' = none) →
      searchAux M off anch s = some (off + pre.length, a, off + pre.length + tot) := by
  intro pre
  induction pre with
  | nil =>
    intro s suf off anch a tot h1 h2 h3 _
    have hanch : anch = true := by
      rcases h2 with ⟨-, hat⟩ | ⟨q, hq⟩
      · exact hat
      · exact absurd hq (by simp)
    subst hanch
    subst h1
    cases s with
    | nil => simp [searchAux, h3]
    | cons c r => simp [searchAux, h3]
  | cons c q ih =>
    intro s suf off anch a tot h1 h2 h3 hmin
    subst h1
    have hnone : (if anch then matchAtAnchor M (c :: (q ++ suf)) else none) = none := by
      cases anch with
      | false => simp
      | true =>
        rw [if_pos rfl]
        exact hmin [] (c :: (q ++ suf)) (by simp) (Or.inl ⟨rfl, rfl⟩) (by simp)
    rw [List.cons_append, searchAux, hnone]
    have hrec := ih (q ++ suf) suf (off + 1) (c = '\n') a tot rfl
      ((preAnchor_cons anch c q).mp h2) h3
      (fun pre' suf' hdec hpa hlen =>
        hmin (c :: pre') suf' (by simp [hdec]) ((preAnchor_cons anch c pre').mpr hpa)
          (by simp; omega))
    rw [hrec]
    have : off + (c :: q).length = off + 1 + q.length := by simp; omega
    rw [this]

/-- Soundness of `searchPat` in terms of text decompositions. -/
theorem SP_sound {M t : Str} {p a e : Nat} (h : searchPat M t = some (p, a, e)) :
    ∃ pre suf tot, t = pre ++ suf ∧ p = pre.length ∧ e = p + tot ∧
      anchorOK pre ∧ matchAtAnchor M suf = some (a, tot) := by
  obtain ⟨pre, suf, tot, h1, h2, h3, h4, h5⟩ := SA_sound t 0 true p a e h
  exact ⟨pre, suf, tot, h1, by omega, h3, (preAnchor_true_iff pre).mp h4, h5⟩

/-- Leftmostness of `searchPat` in terms of text decompositions. -/
theorem SP_leftmost {M t : Str} {p a e : Nat} (h : searchPat M t = some (p, a, e)) :
    ∀ pre' suf', t = pre' ++ suf' → anchorOK pre' → pre'.length < p →
      matchAtAnchor M suf' = none := by
  intro pre' suf' h1 h2 h3
  exact SA_leftmost t 0 true p a e h pre' suf' h1
    ((preAnchor_true_iff pre').mpr h2) (by omega)

/-- Completeness of `searchPat` in terms of text decompositions. -/
theorem SP_found {M t pre suf : Str} {a tot : Nat} (h1 : t = pre ++ suf)
    (h2 : anchorOK pre) (h3 : matchAtAnchor M suf = some (a, tot))
    (hmin : ∀ pre' suf', t = pre' ++ suf' → anchorOK pre' →
      pre'.length < pre.length → matchAtAnchor M suf' = none) :
    searchPat M t = some (pre.length, a, pre.length + tot) := by
  have := SA_found pre t suf 0 true a tot h1 ((preAnchor_true_iff pre).mpr h2) h3
    (fun pre' suf' hd hp hl => hmin pre' suf' hd ((preAnchor_true_iff pre').mp hp) hl)
  simpa using this

/-- Splitting an append equation at the shorter left part. -/
theorem append_split_of_le {l1 r1 l2 r2 : Str} (h : l1 ++ r1 = l2 ++ r2)
    (hle : l1.length ≤ l2.length) : ∃ m, l2 = l1 ++ m ∧ r1 = m ++ r2 := by
  rcases List.append_eq_append_iff.mp h with ⟨m, hm1, hm2⟩ | ⟨m, hm1, hm2⟩
  · exact ⟨m, hm1, hm2⟩
  · have : m.length = 0 := by
      have := congrArg List.length hm1
      simp at this
      omega
    have hm : m = [] := List.length_eq_zero.mp this
    subst hm
    exact ⟨[], by simpa using hm1.symm, by simpa using hm2.symm⟩

theorem searchPat_some_containsSub {M t : Str} {r : Nat × Nat × Nat}
    (h : searchPat M t = some r) : containsSub M t = true := by
  obtain ⟨p, a, e⟩ := r
  obtain ⟨pre, suf, tot, h1, -, -, -, h5⟩ := SP_sound h
  obtain ⟨w, u, v, hsuf, -, -, -, -, -, -, -⟩ := MA_sound h5
  subst h1
  rw [hsuf, ← List.append_assoc]
  exact containsSub_of_parts M (pre ++ w) (u ++ v)

theorem head_drop_mem_take {l : Str} {i n : Nat} {c : Char} {rest : Str}
    (hd : l.drop i = c :: rest) (hin : i < n) : c ∈ l.take n := by
  have h1 : (l.take n).drop i = (l.drop i).take (n - i) := by rw [List.drop_take]
  rw [hd] at h1
  have h2 : (l.take n).drop i = c :: rest.take (n - i - 1) := by
    rw [h1]
    rcases hni : n - i with _ | k
    · omega
    · simp
  have h3 : c ∈ (l.take n).drop i := by
    rw [h2]; exact List.mem_cons_self c _
  exact List.mem_of_mem_drop h3

theorem isWS_newline : isWS '\n' = true := by decide

/-- With a nonblank, newline-free leading segment, no position inside the
leading whitespace run of `z` (nor its end) satisfies `$`. -/
theorem endsLine_drop_false {z : Str} {i : Nat} (hi : i ≤ wsRun z)
    (hz1 : wsRun z < z.length) (hz2 : ∀ c ∈ z.take (wsRun z), c ≠ '\n') :
    endsLine (z.drop i) = false := by
  rcases Nat.lt_or_ge i (wsRun z) with hlt | hge
  · rcases hzd : z.drop i with _ | ⟨c, rest⟩
    · have := congrArg List.length hzd
      simp at this
      omega
    · have hc : c ∈ z.take (wsRun z) := head_drop_mem_take hzd hlt
      have := hz2 c hc
      simp [endsLine, this]
  · have hieq : i = wsRun z := by omega
    subst hieq
    obtain ⟨c, rest, hcr, hcw⟩ := takeWhile_head_not z hz1
    rw [hcr]
    simp only [endsLine]
    by_contra hc
    simp at hc
    rw [hc] at hcw
    exact absurd isWS_newline (by simp [hcw])

/-- The trailing-maximality condition of the anchored matcher holds for a
trailing context `'\n' :: z` whose first line is nonblank and newline-free:
the greedy trailing run cannot move past the inserted newline. -/
theorem hmax_for_nl {u z : Str} (hu : ∀ c ∈ u, isWS c = true)
    (hz1 : wsRun z < z.length) (hz2 : ∀ c ∈ z.take (wsRun z), c ≠ '\n') :
    ∀ j, j ≤ wsRun (u ++ '\n' :: z) → endsLine ((u ++ '\n' :: z).drop j) = true →
      j ≤ u.length := by
  intro j hj hel
  by_contra hc
  push_neg at hc
  have hws : wsRun (u ++ '\n' :: z) = u.length + (wsRun z + 1) := by
    rw [wsRun_append_ws u _ hu, wsRun_cons_ws _ _ isWS_newline]
  rw [hws] at hj
  have hd : (u ++ '\n' :: z).drop j = ('\n' :: z).drop (j - u.length) := by
    have hj2 : j = u.length + (j - u.length) := by omega
    nth_rewrite 1 [hj2]
    rw [List.drop_append]
  rcases hdu : j - u.length with _ | d
  · omega
  · rw [hd, hdu] at hel
    simp only [List.drop_succ_cons] at hel
    have : endsLine (z.drop d) = false := endsLine_drop_false (by omega) hz1 hz2
    rw [this] at hel
    exact absurd hel (by simp)

/-- Start-marker transport: splicing after the start match's end does not
move the leftmost start-marker match, provided the spliced-in tail begins
with a nonblank, newline-free segment. -/
theorem searchS_transport {S text z : Str} {p1 a1 e1 : Nat} {m0 : Char} {Srest : Str}
    (hSM : S = m0 :: Srest) (hSW : ∀ c ∈ S, isWS c = false)
    (h1 : searchPat S text = some (p1, a1, e1))
    (hz1 : wsRun z < z.length)
    (hz2 : ∀ c ∈ z.take (wsRun z), c ≠ '\n') :
    searchPat S (text.take e1 ++ '\n' :: z) = some (p1, a1, e1) := by
  obtain ⟨P, suf, tot, hdec, hp, he, hanch, hMA⟩ := SP_sound h1
  obtain ⟨w1, u1, v1, hsuf, hw1len, hw1, hu1, hv1, htot, -, -⟩ := MA_sound hMA
  have hm0 : isWS m0 = false := hSW m0 (by rw [hSM]; exact List.mem_cons_self _ _)
  have htext : text = (P ++ (w1 ++ (S ++ u1))) ++ v1 := by
    rw [hdec, hsuf]; simp [List.append_assoc]
  have hLlen : (P ++ (w1 ++ (S ++ u1))).length = e1 := by
    simp only [List.length_append]
    omega
  have hA : text.take e1 = P ++ (w1 ++ (S ++ u1)) := by
    rw [htext]
    exact List.take_left' hLlen
  rw [hA]
  have hO : P ++ (w1 ++ (S ++ u1)) ++ '\n' :: z
      = P ++ (w1 ++ (S ++ (u1 ++ '\n' :: z))) := by
    simp [List.append_assoc]
  rw [hO]
  have hMAO : matchAtAnchor S (w1 ++ (S ++ (u1 ++ '\n' :: z)))
      = some (w1.length, w1.length + S.length + u1.length) :=
    MA_eq S w1 u1 ('\n' :: z) m0 Srest hSM hm0 hw1 hu1 (by simp [endsLine])
      (hmax_for_nl hu1 hz1 hz2)
  have hmin : ∀ pre' suf',
      P ++ (w1 ++ (S ++ (u1 ++ '\n' :: z))) = pre' ++ suf' → anchorOK pre' →
      pre'.length < P.length → matchAtAnchor S suf' = none := by
    intro pre' suf' hd hok hlen
    rcases hMm : matchAtAnchor S suf' with _ | ⟨a', t'⟩
    · rfl
    exfalso
    obtain ⟨w, u, v, hsuf', -, hwws, huws, hev, -, -, -⟩ := MA_sound hMm
    have hOeq : (pre' ++ w) ++ (S ++ (u ++ v))
        = (P ++ w1) ++ (S ++ (u1 ++ '\n' :: z)) := by
      have h9 : pre' ++ suf' = (P ++ w1) ++ (S ++ (u1 ++ '\n' :: z)) := by
        rw [← hd]
        simp [List.append_assoc]
      calc (pre' ++ w) ++ (S ++ (u ++ v)) = pre' ++ suf' := by
            rw [hsuf']; simp [List.append_assoc]
        _ = (P ++ w1) ++ (S ++ (u1 ++ '\n' :: z)) := h9
    have hle1 : (pre' ++ w).length ≤ (P ++ w1).length := by
      by_contra hgt
      push_neg at hgt
      obtain ⟨m, hm1, hm2⟩ := append_split_of_le hOeq.symm (le_of_lt hgt)
      rcases m with _ | ⟨mc, m'⟩
      · have h9 := congrArg List.length hm1
        simp only [List.length_append, List.length_nil] at h9 hgt
        omega
      · simp only [hSM, List.cons_append] at hm2
        injection hm2 with hmc0 hrest0
        obtain ⟨m2, -, hw2⟩ : ∃ m2 : Str, P ++ w1 = pre' ++ m2 ∧ w = m2 ++ mc :: m' := by
          refine append_split_of_le hm1 ?_
          simp only [List.length_append]
          omega
        have hmem : mc ∈ w := by rw [hw2]; simp
        have hwsmc := hwws mc hmem
        have hm0f : isWS m0 = false := by
          rw [hSM] at hSW
          exact hSW m0 (List.mem_cons_self _ _)
        rw [← hmc0] at hwsmc
        rw [hm0f] at hwsmc
        exact absurd hwsmc (by simp)
    have hOeq2 : ((pre' ++ w) ++ S) ++ (u ++ v)
        = ((P ++ w1) ++ (S ++ u1)) ++ '\n' :: z := by
      calc ((pre' ++ w) ++ S) ++ (u ++ v)
          = (pre' ++ w) ++ (S ++ (u ++ v)) := by simp [List.append_assoc]
        _ = (P ++ w1) ++ (S ++ (u1 ++ '\n' :: z)) := hOeq
        _ = ((P ++ w1) ++ (S ++ u1)) ++ '\n' :: z := by simp [List.append_assoc]
    have hle3 : ((pre' ++ w) ++ S).length ≤ ((P ++ w1) ++ (S ++ u1)).length := by
      simp only [List.length_append] at hle1 ⊢
      omega
    obtain ⟨tailA, htailA, hta2⟩ := append_split_of_le hOeq2 hle3
    -- text = pre' ++ w ++ S ++ tailA ++ v1; the earlier anchored position
    -- pre' would then host a successful match in the original text
    have htext2 : text = pre' ++ (w ++ (S ++ (tailA ++ v1))) := by
      calc text = (P ++ (w1 ++ (S ++ u1))) ++ v1 := htext
        _ = ((P ++ w1) ++ (S ++ u1)) ++ v1 := by simp [List.append_assoc]
        _ = (((pre' ++ w) ++ S) ++ tailA) ++ v1 := by rw [htailA]
        _ = pre' ++ (w ++ (S ++ (tailA ++ v1))) := by simp [List.append_assoc]
    have hnone := SP_leftmost h1 pre' (w ++ (S ++ (tailA ++ v1))) htext2 hok (by omega)
    rcases Nat.le_total u.length tailA.length with hult | hugt
    · obtain ⟨t2, ht2a, ht2b⟩ := append_split_of_le hta2 hult
      have hev2 : endsLine (t2 ++ v1) = true := by
        rcases t2 with _ | ⟨tc, tr⟩
        · simpa using hv1
        · rw [ht2b] at hev
          simpa [endsLine] using hev
      have hiso := MA_isSome S w u (t2 ++ v1) hwws huws hev2
      have heq3 : w ++ (S ++ (u ++ (t2 ++ v1))) = w ++ (S ++ (tailA ++ v1)) := by
        rw [ht2a]; simp [List.append_assoc]
      rw [heq3, hnone] at hiso
      exact absurd hiso (by simp)
    · obtain ⟨m3, hm3a, -⟩ := append_split_of_le hta2.symm hugt
      have htaws : ∀ c ∈ tailA, isWS c = true := by
        intro c hc
        exact huws c (by rw [hm3a]; exact List.mem_append_left _ hc)
      have hiso := MA_isSome S w tailA v1 hwws htaws hv1
      rw [hnone] at hiso
      exact absurd hiso (by simp)
  have := SP_found rfl hanch hMAO hmin
  rw [this]
  have h5 : P.length = p1 := hp.symm
  rw [h5, hw1len]
  have h6 : p1 + (a1 + S.length + u1.length) = e1 := by omega
  rw [h6]

/-- A whitespace-free marker cannot contain the newline sitting at a region
boundary it would have to straddle. -/
theorem marker_no_cross {E g rest2 u v : Str} (hEW : ∀ c ∈ E, isWS c = false)
    (heq : E ++ (u ++ v) = g ++ '\n' :: rest2) (hlt : g.length < E.length) : False := by
  obtain ⟨h, hh1, hh2⟩ := append_split_of_le heq.symm (le_of_lt hlt)
  cases h with
  | nil =>
    have := congrArg List.length hh1
    simp at this
    omega
  | cons hc ht =>
    have hc0 : hc = '\n' := by
      simp only [List.cons_append] at hh2
      injection hh2 with h9 h10
      exact h9.symm
    have hmem : hc ∈ E := by rw [hh1]; simp
    have := hEW hc hmem
    rw [hc0] at this
    exact absurd isWS_newline (by simp [this])

/-- End-marker transport: in the spliced output the leftmost end-marker
match starts exactly at the preserved tail, provided the replacement block
ends with a nonblank, newline-free final line and does not itself contain
the end marker. -/
theorem searchE_transport {E text rep : Str} {p2 a2 e2 e1 : Nat} {em0 : Char} {Erest : Str}
    (hEM : E = em0 :: Erest) (hEW : ∀ c ∈ E, isWS c = false)
    (h2 : searchPat E text = some (p2, a2, e2))
    (he1p2 : e1 < p2)
    (hD : endsLine (text.drop e1) = true)
    (hrpv1 : wsRun rep.reverse < rep.reverse.length)
    (hrpv2 : ∀ c ∈ rep.reverse.take (wsRun rep.reverse), c ≠ '\n')
    (hsub : containsSub E rep = false) :
    searchPat E (text.take e1 ++ '\n' :: (rep ++ '\n' :: text.drop p2))
      = some (e1 + (rep.length + 2), a2, e1 + (rep.length + 2) + (e2 - p2)) := by
  obtain ⟨Q, B, tot2, hdec, hp2, he2, hanchQ, hMAB⟩ := SP_sound h2
  have hp2len : p2 ≤ text.length := by
    rw [hdec]
    simp [hp2]
  have he1len : e1 ≤ text.length := by omega
  have hAlen : (text.take e1).length = e1 := by simp [List.length_take, he1len]
  -- text = A ++ D, and Q extends A by mid
  have htAD : text = text.take e1 ++ text.drop e1 := (List.take_append_drop e1 text).symm
  obtain ⟨mid, hQ, hDsplit⟩ : ∃ mid, Q = text.take e1 ++ mid ∧ text.drop e1 = mid ++ B := by
    refine append_split_of_le (htAD.symm.trans hdec) ?_
    rw [hAlen, ← hp2]
    omega
  have hBdrop : text.drop p2 = B := by
    rw [hdec, hp2, List.drop_left]
  rw [hBdrop]
  -- the decomposition of the spliced output at the preserved tail
  have hpre0 : text.take e1 ++ '\n' :: (rep ++ '\n' :: B)
      = (text.take e1 ++ '\n' :: (rep ++ ['\n'])) ++ B := by
    simp [List.append_assoc]
  have hpre0len : (text.take e1 ++ '\n' :: (rep ++ ['\n'])).length = e1 + (rep.length + 2) := by
    simp only [List.length_append, List.length_cons, List.length_nil, hAlen]
  have hanch0 : anchorOK (text.take e1 ++ '\n' :: (rep ++ ['\n'])) := by
    right
    exact ⟨text.take e1 ++ '\n' :: rep, by simp⟩
  -- structure of the replacement's final line
  have hrep0 : rep ≠ [] := by
    intro hr
    rw [hr] at hrpv1
    simp [wsRun] at hrpv1
  obtain ⟨cS, restS, hrevdec, hcSw⟩ := takeWhile_head_not rep.reverse hrpv1
  have hrepdec : rep = restS.reverse ++ cS :: (rep.reverse.take (wsRun rep.reverse)).reverse := by
    have h9 : rep.reverse = rep.reverse.take (wsRun rep.reverse) ++ (cS :: restS) := by
      rw [← hrevdec]
      exact (List.take_append_drop _ _).symm
    have h10 := congrArg List.reverse h9
    simp at h10
    simpa using h10
  have hmin : ∀ pre' suf',
      text.take e1 ++ '\n' :: (rep ++ '\n' :: B) = pre' ++ suf' → anchorOK pre' →
      pre'.length < e1 + (rep.length + 2) → matchAtAnchor E suf' = none := by
    intro pre' suf' hd hok hlen
    rcases hMm : matchAtAnchor E suf' with _ | ⟨a', t'⟩
    · rfl
    exfalso
    obtain ⟨w, u, v, hsuf', -, hwws, huws, hev, -, -, -⟩ := MA_sound hMm
    have hOeq : (pre' ++ w) ++ (E ++ (u ++ v))
        = text.take e1 ++ '\n' :: (rep ++ '\n' :: B) := by
      calc (pre' ++ w) ++ (E ++ (u ++ v)) = pre' ++ suf' := by
            rw [hsuf']; simp [List.append_assoc]
        _ = text.take e1 ++ '\n' :: (rep ++ '\n' :: B) := hd.symm
    rcases Nat.lt_or_ge ((pre' ++ w).length + E.length) (e1 + 1) with hca | hcb
    · -- the would-be match lies inside the preserved prefix: it would already
      -- have matched in the original text before the real end match
      have hle : ((pre' ++ w) ++ E).length ≤ (text.take e1).length := by
        simp only [List.length_append] at hca ⊢
        omega
      have hOeq2 : ((pre' ++ w) ++ E) ++ (u ++ v)
          = text.take e1 ++ '\n' :: (rep ++ '\n' :: B) := by
        rw [← hOeq]; simp [List.append_assoc]
      obtain ⟨tailA, htailA, hta2⟩ := append_split_of_le hOeq2 hle
      have htext2 : text = pre' ++ (w ++ (E ++ (tailA ++ text.drop e1))) := by
        calc text = text.take e1 ++ text.drop e1 := htAD
          _ = (((pre' ++ w) ++ E) ++ tailA) ++ text.drop e1 := by rw [htailA]
          _ = pre' ++ (w ++ (E ++ (tailA ++ text.drop e1))) := by simp [List.append_assoc]
      have hprelt : pre'.length < p2 := by
        have := congrArg List.length htailA
        simp only [List.length_append, hAlen] at this
        simp only [List.length_append] at hca
        omega
      have hnone := SP_leftmost h2 pre' (w ++ (E ++ (tailA ++ text.drop e1))) htext2 hok hprelt
      rcases Nat.le_total u.length tailA.length with hult | hugt
      · obtain ⟨t2, ht2a, ht2b⟩ := append_split_of_le hta2 hult
        have hev2 : endsLine (t2 ++ text.drop e1) = true := by
          rcases t2 with _ | ⟨tc, tr⟩
          · simpa using hD
          · rw [ht2b] at hev
            simpa [endsLine] using hev
        have hiso := MA_isSome E w u (t2 ++ text.drop e1) hwws huws hev2
        have heq3 : w ++ (E ++ (u ++ (t2 ++ text.drop e1)))
            = w ++ (E ++ (tailA ++ text.drop e1)) := by
          rw [ht2a]; simp [List.append_assoc]
        rw [heq3, hnone] at hiso
        exact absurd hiso (by simp)
      · obtain ⟨m3, hm3a, -⟩ := append_split_of_le hta2.symm hugt
        have htaws : ∀ c ∈ tailA, isWS c = true := by
          intro c hc
          exact huws c (by rw [hm3a]; exact List.mem_append_left _ hc)
        have hiso := MA_isSome E w tailA (text.drop e1) hwws htaws hD
        rw [hnone] at hiso
        exact absurd hiso (by simp)
    rcases Nat.le_total (pre' ++ w).length e1 with hxa | hxb
    · -- the marker would straddle the first inserted newline
      have hle : (pre' ++ w).length ≤ (text.take e1).length := by rw [hAlen]; exact hxa
      obtain ⟨g, hg1, hg2⟩ := append_split_of_le hOeq hle
      refine marker_no_cross hEW hg2 ?_
      have h9 := congrArg List.length hg1
      simp only [List.length_append, hAlen] at h9 hcb ⊢
      omega
    rcases Nat.lt_or_ge ((pre' ++ w).length + E.length) (e1 + 1 + rep.length + 1) with hma | hmb
    · -- the marker would sit inside the replacement block
      have hxc : e1 + 1 ≤ (pre' ++ w).length := by
        by_cases hxc0 : (pre' ++ w).length = e1
        · exfalso
          -- the marker would start exactly at the first inserted newline
          have hg2 : E ++ (u ++ v) = [] ++ '\n' :: (rep ++ '\n' :: B) := by
            have h9 := hOeq
            rw [← hAlen] at hxc0
            obtain ⟨g, hg1, hg2⟩ := append_split_of_le h9.symm (le_of_eq hxc0.symm)
            have hg0 : g = [] := by
              have := congrArg List.length hg1
              simp only [List.length_append] at this hxc0
              have : g.length = 0 := by omega
              exact List.length_eq_zero.mp this
            rw [hg0] at hg2
            simpa using hg2.symm
          exact marker_no_cross hEW hg2 (by rw [hEM]; simp)
        · simp only [List.length_append] at hxb hxc0 ⊢
          omega
      -- split the output at the first newline
      have hOeq3 : (text.take e1 ++ ['\n']) ++ (rep ++ '\n' :: B)
          = (pre' ++ w) ++ (E ++ (u ++ v)) := by
        rw [hOeq]; simp [List.append_assoc]
      obtain ⟨m1, hm1a, hm1b⟩ := append_split_of_le hOeq3 (by
        simp only [List.length_append, hAlen, List.length_cons, List.length_nil] at hxc ⊢
        omega)
      -- m1 is the part of rep before the marker occurrence
      have hm1len : m1.length + E.length ≤ rep.length := by
        have h9 := congrArg List.length hm1a
        simp only [List.length_append, hAlen, List.length_cons,
          List.length_nil] at h9 hma hxc
        omega
      obtain ⟨m2, hm2a, hm2b⟩ := append_split_of_le hm1b.symm (by omega)
      obtain ⟨m4, hm4a, -⟩ := append_split_of_le hm2b (by
        have h9 := congrArg List.length hm2a
        simp only [List.length_append] at h9 ⊢
        omega)
      rw [hm2a, hm4a] at hsub
      rw [containsSub_of_parts E m1 m4] at hsub
      exact absurd hsub (by simp)
    rcases Nat.lt_or_ge (pre' ++ w).length (e1 + 1 + rep.length + 1) with hna | hnb
    · -- the marker would straddle the second inserted newline
      have hOeq4 : ((text.take e1 ++ ['\n']) ++ rep) ++ ('\n' :: B)
          = (pre' ++ w) ++ (E ++ (u ++ v)) := by
        rw [hOeq]; simp [List.append_assoc]
      obtain ⟨g, hg1, hg2⟩ := append_split_of_le hOeq4.symm (by
        simp only [List.length_append, hAlen, List.length_cons, List.length_nil] at hna ⊢
        omega)
      refine marker_no_cross hEW hg2 ?_
      have h9 := congrArg List.length hg1
      simp only [List.length_append, hAlen, List.length_cons, List.length_nil] at h9 hmb ⊢
      omega
    · -- the would-be match starts inside or right after the replacement's
      -- trailing whitespace: either its whitespace run or its anchor hits a
      -- non-newline character
      have hpre0le : (text.take e1 ++ '\n' :: (rep ++ ['\n'])).length ≤ (pre' ++ w).length := by
        rw [hpre0len]
        simp only [List.length_append] at hnb ⊢
        omega
      have hOeq5 : (text.take e1 ++ '\n' :: (rep ++ ['\n'])) ++ B
          = (pre' ++ w) ++ (E ++ (u ++ v)) := by
        rw [hOeq]; simp [List.append_assoc]
      obtain ⟨m, hm1, -⟩ := append_split_of_le hOeq5 hpre0le
      obtain ⟨d, hd1, hd2⟩ := append_split_of_le hm1 (by
        rw [hpre0len]
        omega)
      have hdws : ∀ c ∈ d, isWS c = true := by
        intro c hc
        exact hwws c (by rw [hd2]; exact List.mem_append_left _ hc)
      -- pre₀ written with the last non-whitespace character of rep exposed
      have hpre0dec : text.take e1 ++ '\n' :: (rep ++ ['\n'])
          = (text.take e1 ++ '\n' :: restS.reverse) ++
            cS :: ((rep.reverse.take (wsRun rep.reverse)).reverse ++ ['\n']) := by
        nth_rewrite 1 [hrepdec]
        simp [List.append_assoc]
      rcases Nat.le_total pre'.length (text.take e1 ++ '\n' :: restS.reverse).length with hpa | hpb
      · -- the whitespace run before the marker would cover that character
        have h9 : (text.take e1 ++ '\n' :: restS.reverse) ++
            cS :: ((rep.reverse.take (wsRun rep.reverse)).reverse ++ ['\n']) = pre' ++ d := by
          rw [← hpre0dec, hd1]
        obtain ⟨g, -, hg2⟩ := append_split_of_le h9.symm hpa
        have hcSd : cS ∈ d := by
          rw [hg2]; simp
        have := hdws cS hcSd
        exact absurd this (by simp [hcSw])
      · -- the anchor just before the marker line would sit on a
        -- non-newline character of the trailing whitespace
        obtain ⟨g, hg1, hg2⟩ := append_split_of_le (hpre0dec.symm.trans hd1) hpb
        rcases hok with hok0 | ⟨q, hq⟩
        · rw [hok0] at hg1
          have := congrArg List.length hg1
          simp at this
          omega
        · have hgne : g ≠ [] ∨ g = [] := by tauto
          rcases hgne with hgne | hgnil
          · -- the last character of pre' is the last of g, inside cS :: trailing ws
            have hrev : g.reverse ++ (text.take e1 ++ '\n' :: restS.reverse).reverse
                = '\n' :: q.reverse := by
              have h9 := congrArg List.reverse hg1
              rw [hq] at h9
              simpa using h9.symm
            rcases hgr : g.reverse with _ | ⟨gc, gr⟩
            · exact hgne (by simpa using congrArg List.reverse hgr)
            · rw [hgr] at hrev
              simp only [List.cons_append] at hrev
              injection hrev with h10 h10b
              -- gc is the last char of g; g is a prefix of cS :: trailing ws,
              -- all of which are either cS (non-ws) or non-newline whitespace
              have hgc : gc ∈ g := by
                have h19 : gc ∈ g.reverse := by rw [hgr]; simp
                simpa using h19
              have hd_ne : d ≠ [] := by
                intro h30
                rw [h30, List.append_nil] at hd1
                have h31 := congrArg List.length hd1
                rw [hpre0len] at h31
                omega
              have h14 : (cS :: (rep.reverse.take (wsRun rep.reverse)).reverse) ++ ['\n']
                  = g ++ d := by
                simpa using hg2
              have hgmem : gc ∈ cS :: (rep.reverse.take (wsRun rep.reverse)).reverse := by
                obtain ⟨h4, h4a, -⟩ := append_split_of_le h14.symm (by
                  have h15 := congrArg List.length h14
                  have h16 : 1 ≤ d.length := by
                    rcases d with _ | _
                    · exact absurd rfl hd_ne
                    · simp
                  simp only [List.length_append, List.length_cons, List.length_nil] at h15 ⊢
                  omega)
                rw [h4a]
                exact List.mem_append_left _ hgc
              rcases List.mem_cons.mp hgmem with hgcS | hgtr
              · -- gc = cS : but gc = '\n' is whitespace while cS is not
                rw [← hgcS] at hcSw
                rw [h10] at hcSw
                exact absurd isWS_newline (by simp [hcSw])
              · -- gc is in the trailing whitespace, which contains no newline
                have h20 : gc ∈ rep.reverse.take (wsRun rep.reverse) := by
                  simpa using hgtr
                have := hrpv2 gc h20
                exact this h10
          · rw [hgnil, List.append_nil] at hg1
            -- pre' ends exactly at the exposed non-whitespace character: its
            -- anchor requirement fails since that would need a newline before
            -- the marker, but the next character is cS
            rw [hgnil] at hg2
            simp only [List.nil_append] at hg2
            -- d begins with cS, contradicting that d is whitespace
            have hcSd : cS ∈ d := by
              rw [← hg2]; simp
            have := hdws cS hcSd
            exact absurd this (by simp [hcSw])
  have hfound := SP_found hpre0 hanch0 hMAB (by
    intro pre' suf' hd hok hlen
    refine hmin pre' suf' ?_ hok ?_
    · rw [← hd, hpre0]
    · rw [hpre0len] at hlen
      exact hlen)
  rw [hfound, hpre0len]
  have htot : tot2 = e2 - p2 := by omega
  rw [htot]

theorem wsRun_append_stop {x y : Str} (hx : wsRun x < x.length) :
    wsRun (x ++ y) = wsRun x := by
  obtain ⟨c, rest, hdrop, hcw⟩ := takeWhile_head_not x hx
  have hxdec : x = x.take (wsRun x) ++ c :: rest := by
    rw [← hdrop]
    exact (List.take_append_drop (wsRun x) x).symm
  have hlen : (x.take (wsRun x)).length = wsRun x := by
    simp [List.length_take]
    omega
  calc wsRun (x ++ y) = wsRun ((x.take (wsRun x) ++ c :: rest) ++ y) := by rw [← hxdec]
    _ = wsRun (x.take (wsRun x) ++ (c :: (rest ++ y))) := by simp [List.append_assoc]
    _ = (x.take (wsRun x)).length + wsRun (c :: (rest ++ y)) :=
        wsRun_append_ws _ _ (allWS_take_of_le_wsRun x (wsRun x) (le_refl _))
    _ = wsRun x := by rw [wsRun_cons_not _ _ hcw, hlen]; omega

/-- A successful `replace_block` run, written out with the two search
results. -/
theorem replace_block_eq_ok {text S E R : Str} {p1 a1 e1 p2 a2 e2 : Nat}
    (h1 : searchPat S text = some (p1, a1, e1))
    (h2 : searchPat E text = some (p2, a2, e2))
    (h3 : e1 < p2) :
    replace_block text S E R
      = .ok (text.take e1 ++ '\n' ::
          (indentRepl ((text.drop p1).take a1) R ++ '\n' :: text.drop p2)) := by
  unfold replace_block
  simp only [h1, h2]
  rw [if_neg (by omega)]

/-- Amended idempotence: under the stated side conditions on the markers and
the re-indented replacement block, splicing a second time reproduces the
first output byte for byte. -/
theorem replace_block_idem {text S E R : Str} {p1 a1 e1 p2 a2 e2 : Nat}
    (hS : S ≠ []) (hSW : ∀ c ∈ S, isWS c = false)
    (hE : E ≠ []) (hEW : ∀ c ∈ E, isWS c = false)
    (h1 : searchPat S text = some (p1, a1, e1))
    (h2 : searchPat E text = some (p2, a2, e2))
    (h3 : e1 < p2)
    (hz1 : wsRun (indentRepl ((text.drop p1).take a1) R)
      < (indentRepl ((text.drop p1).take a1) R).length)
    (hz2 : ∀ c ∈ (indentRepl ((text.drop p1).take a1) R).take
      (wsRun (indentRepl ((text.drop p1).take a1) R)), c ≠ '\n')
    (hrv1 : wsRun (indentRepl ((text.drop p1).take a1) R).reverse
      < (indentRepl ((text.drop p1).take a1) R).reverse.length)
    (hrv2 : ∀ c ∈ (indentRepl ((text.drop p1).take a1) R).reverse.take
      (wsRun (indentRepl ((text.drop p1).take a1) R).reverse), c ≠ '\n')
    (hsub : containsSub E (indentRepl ((text.drop p1).take a1) R) = false) :
    replace_block text S E R
        = .ok (text.take e1 ++ '\n' ::
            (indentRepl ((text.drop p1).take a1) R ++ '\n' :: text.drop p2)) ∧
      replace_block (text.take e1 ++ '\n' ::
            (indentRepl ((text.drop p1).take a1) R ++ '\n' :: text.drop p2)) S E R
        = .ok (text.take e1 ++ '\n' ::
            (indentRepl ((text.drop p1).take a1) R ++ '\n' :: text.drop p2)) := by
  obtain ⟨m0, Srest, hSd⟩ : ∃ m0 Srest, S = m0 :: Srest := by
    rcases S with _ | ⟨x, xs⟩
    · exact absurd rfl hS
    · exact ⟨x, xs, rfl⟩
  obtain ⟨em0, Erest, hEd⟩ : ∃ em0 Erest, E = em0 :: Erest := by
    rcases E with _ | ⟨x, xs⟩
    · exact absurd rfl hE
    · exact ⟨x, xs, rfl⟩
  refine ⟨replace_block_eq_ok h1 h2 h3, ?_⟩
  -- facts from the first start match
  obtain ⟨P, suf, tot, hdec, hp, he, hanch, hMA⟩ := SP_sound h1
  obtain ⟨w1, u1, v1, hsuf, hw1len, hw1, hu1, hv1, htot, -, -⟩ := MA_sound hMA
  have hSlen : 1 ≤ S.length := by rw [hSd]; simp
  have hpa1e1 : p1 + a1 + 1 ≤ e1 := by omega
  have htext : text = (P ++ (w1 ++ (S ++ u1))) ++ v1 := by
    rw [hdec, hsuf]; simp [List.append_assoc]
  have hLlen : (P ++ (w1 ++ (S ++ u1))).length = e1 := by
    simp only [List.length_append]
    omega
  have hv1drop : text.drop e1 = v1 := by
    rw [htext]
    exact List.drop_left' hLlen
  have hD : endsLine (text.drop e1) = true := by rw [hv1drop]; exact hv1
  -- transports of the two searches
  have hzw : wsRun (indentRepl ((text.drop p1).take a1) R ++ '\n' :: text.drop p2)
      = wsRun (indentRepl ((text.drop p1).take a1) R) := wsRun_append_stop hz1
  have hzt : (indentRepl ((text.drop p1).take a1) R ++ '\n' :: text.drop p2).take
        (wsRun (indentRepl ((text.drop p1).take a1) R))
      = (indentRepl ((text.drop p1).take a1) R).take
        (wsRun (indentRepl ((text.drop p1).take a1) R)) :=
    List.take_append_of_le_length (le_of_lt hz1)
  have hs1 : searchPat S (text.take e1 ++ '\n' ::
      (indentRepl ((text.drop p1).take a1) R ++ '\n' :: text.drop p2))
      = some (p1, a1, e1) := by
    refine searchS_transport hSd hSW h1 ?_ ?_
    · rw [hzw]
      calc wsRun (indentRepl ((text.drop p1).take a1) R)
          < (indentRepl ((text.drop p1).take a1) R).length := hz1
        _ ≤ (indentRepl ((text.drop p1).take a1) R ++ '\n' :: text.drop p2).length := by
            simp
    · rw [hzw, hzt]
      exact hz2
  have hs2 : searchPat E (text.take e1 ++ '\n' ::
      (indentRepl ((text.drop p1).take a1) R ++ '\n' :: text.drop p2))
      = some (e1 + ((indentRepl ((text.drop p1).take a1) R).length + 2), a2,
          e1 + ((indentRepl ((text.drop p1).take a1) R).length + 2) + (e2 - p2)) :=
    searchE_transport hEd hEW h2 h3 hD hrv1 hrv2 hsub
  -- second run of replace_block
  rw [replace_block_eq_ok hs1 hs2 (by omega)]
  -- identify the pieces of the second run with those of the first
  have he1A : e1 ≤ (text.take e1).length := by
    have h9 : e1 ≤ text.length := by
      rw [htext]
      simp only [List.length_append]
      omega
    simp [List.length_take]
    omega
  have htakeO : (text.take e1 ++ '\n' ::
      (indentRepl ((text.drop p1).take a1) R ++ '\n' :: text.drop p2)).take e1
      = text.take e1 := by
    rw [List.take_append_of_le_length he1A]
    have h9 : e1 ≤ text.length := by
      rw [htext]
      simp only [List.length_append]
      omega
    rw [List.take_take]
    simp
  have hdropO : (text.take e1 ++ '\n' ::
      (indentRepl ((text.drop p1).take a1) R ++ '\n' :: text.drop p2)).drop p1
      = (text.take e1).drop p1 ++ '\n' ::
        (indentRepl ((text.drop p1).take a1) R ++ '\n' :: text.drop p2) := by
    refine List.drop_append_of_le_length ?_
    omega
  have hindO : ((text.take e1 ++ '\n' ::
      (indentRepl ((text.drop p1).take a1) R ++ '\n' :: text.drop p2)).drop p1).take a1
      = (text.drop p1).take a1 := by
    rw [hdropO]
    have h9 : a1 ≤ ((text.take e1).drop p1).length := by
      simp only [List.length_drop, List.length_take]
      have h10 : e1 ≤ text.length := by
        rw [htext]
        simp only [List.length_append]
        omega
      omega
    rw [List.take_append_of_le_length h9]
    have h11 : (text.take e1).drop p1 = (text.drop p1).take (e1 - p1) := by
      rw [List.drop_take]
    rw [h11, List.take_take]
    have h12 : min a1 (e1 - p1) = a1 := by omega
    rw [h12]
  have hdropO2 : (text.take e1 ++ '\n' ::
      (indentRepl ((text.drop p1).take a1) R ++ '\n' :: text.drop p2)).drop
        (e1 + ((indentRepl ((text.drop p1).take a1) R).length + 2))
      = text.drop p2 := by
    have h9 : text.take e1 ++ '\n' ::
        (indentRepl ((text.drop p1).take a1) R ++ '\n' :: text.drop p2)
        = (text.take e1 ++ '\n' :: (indentRepl ((text.drop p1).take a1) R ++ ['\n']))
          ++ text.drop p2 := by
      simp [List.append_assoc]
    rw [h9]
    refine List.drop_left' ?_
    simp only [List.length_append, List.length_cons, List.length_nil, List.length_take]
    have h10 : e1 ≤ text.length := by
      rw [htext]
      simp only [List.length_append]
      omega
    omega
  rw [htakeO, hindO, hdropO2]

/-! ## Claim C1 — idempotence of the block splicer -/

/-- Claim C1, counterexample: splicing is not idempotent for every document
with unique, ordered marker lines and every replacement.  With document
`"<<S>>\nX\n<<E>>"` and replacement `"\nA"` (first line blank), the first
splice yields `"<<S>>\n\nA\n<<E>>"`, but splicing that output again with the
same arguments yields `"<<S>>\n\n\nA\n<<E>>"`: the greedy trailing `\s*` of
the start pattern swallows the blank line that the first splice introduced,
so each run inserts one more newline. -/
theorem c1_counterexample :
    replace_block "<<S>>\nX\n<<E>>".toList "<<S>>".toList "<<E>>".toList "\nA".toList
        = .ok "<<S>>\n\nA\n<<E>>".toList ∧
      replace_block "<<S>>\n\nA\n<<E>>".toList "<<S>>".toList "<<E>>".toList "\nA".toList
        = .ok "<<S>>\n\n\nA\n<<E>>".toList ∧
      "<<S>>\n\n\nA\n<<E>>".toList ≠ "<<S>>\n\nA\n<<E>>".toList :=
  ⟨rfl, rfl, by decide⟩

/-- Claim C1, amended: `replace_block` is idempotent provided that (i) the
markers are nonempty and contain no whitespace, (ii) both marker searches
succeed with the end match starting strictly after the start match ends, and
(iii) the re-indented replacement block has a nonblank, newline-free first
line, a nonblank, newline-free final line, and does not itself contain the
end marker.  Then re-splicing the output with identical arguments
reproduces it byte for byte. -/
theorem c1_replace_block_idempotent {text S E R : Str} {p1 a1 e1 p2 a2 e2 : Nat}
    (hS : S ≠ []) (hSW : ∀ c ∈ S, isWS c = false)
    (hE : E ≠ []) (hEW : ∀ c ∈ E, isWS c = false)
    (h1 : searchPat S text = some (p1, a1, e1))
    (h2 : searchPat E text = some (p2, a2, e2))
    (h3 : e1 < p2)
    (hz1 : wsRun (indentRepl ((text.drop p1).take a1) R)
      < (indentRepl ((text.drop p1).take a1) R).length)
    (hz2 : ∀ c ∈ (indentRepl ((text.drop p1).take a1) R).take
      (wsRun (indentRepl ((text.drop p1).take a1) R)), c ≠ '\n')
    (hrv1 : wsRun (indentRepl ((text.drop p1).take a1) R).reverse
      < (indentRepl ((text.drop p1).take a1) R).reverse.length)
    (hrv2 : ∀ c ∈ (indentRepl ((text.drop p1).take a1) R).reverse.take
      (wsRun (indentRepl ((text.drop p1).take a1) R).reverse), c ≠ '\n')
    (hsub : containsSub E (indentRepl ((text.drop p1).take a1) R) = false) :
    replace_block text S E R
        = .ok (text.take e1 ++ '\n' ::
            (indentRepl ((text.drop p1).take a1) R ++ '\n' :: text.drop p2)) ∧
      replace_block (text.take e1 ++ '\n' ::
            (indentRepl ((text.drop p1).take a1) R ++ '\n' :: text.drop p2)) S E R
        = .ok (text.take e1 ++ '\n' ::
            (indentRepl ((text.drop p1).take a1) R ++ '\n' :: text.drop p2)) :=
  replace_block_idem hS hSW hE hEW h1 h2 h3 hz1 hz2 hrv1 hrv2 hsub

/-- Witness for the amended claim C1 at a concrete document, with
indented markers and a replacement containing a blank middle line. -/
theorem c1_witness :
    replace_block "pre\n  <<S>>\nmid\n  <<E>>\npost".toList
        "<<S>>".toList "<<E>>".toList "A\n\nB".toList
      = .ok ("pre\n  <<S>>\nmid\n  <<E>>\npost".toList.take 11 ++ '\n' ::
          (indentRepl (("pre\n  <<S>>\nmid\n  <<E>>\npost".toList.drop 4).take 2)
              "A\n\nB".toList ++
            '\n' :: "pre\n  <<S>>\nmid\n  <<E>>\npost".toList.drop 16)) ∧
    replace_block
        ("pre\n  <<S>>\nmid\n  <<E>>\npost".toList.take 11 ++ '\n' ::
          (indentRepl (("pre\n  <<S>>\nmid\n  <<E>>\npost".toList.drop 4).take 2)
              "A\n\nB".toList ++
            '\n' :: "pre\n  <<S>>\nmid\n  <<E>>\npost".toList.drop 16))
        "<<S>>".toList "<<E>>".toList "A\n\nB".toList
      = .ok ("pre\n  <<S>>\nmid\n  <<E>>\npost".toList.take 11 ++ '\n' ::
          (indentRepl (("pre\n  <<S>>\nmid\n  <<E>>\npost".toList.drop 4).take 2)
              "A\n\nB".toList ++
            '\n' :: "pre\n  <<S>>\nmid\n  <<E>>\npost".toList.drop 16)) :=
  @c1_replace_block_idempotent "pre\n  <<S>>\nmid\n  <<E>>\npost".toList
    "<<S>>".toList "<<E>>".toList "A\n\nB".toList 4 2 11 16 2 23
    (by decide) (by decide) (by decide) (by decide)
    (by decide) (by decide) (by decide) (by decide) (by decide) (by decide)
    (by decide) (by decide)

theorem takeWhile_ws_append (w : Str) (c : Char) (rest : Str)
    (hw : ∀ x ∈ w, isWS x = true) (hc : isWS c = false) :
    (w ++ c :: rest).takeWhile isWS = w := by
  induction w with
  | nil => simp [List.takeWhile_cons, hc]
  | cons a t ih =>
    have ha : isWS a = true := hw a (List.mem_cons_self a t)
    have ht : ∀ x ∈ t, isWS x = true := fun x hx => hw x (List.mem_cons_of_mem a hx)
    simp [List.takeWhile_cons, ha, ih ht]

/-! ## Claim C6 — frame property of a successful splice -/

/-- Claim C6, counterexample: on success `replace_block` does not always
preserve the document only up to the start marker line.  In
`"<<S>>\n\nX\n<<E>>"` the greedy trailing `\s*` of the start pattern
swallows the blank line after the marker line, so the preserved prefix is
`"<<S>>\n"` and the result is `"<<S>>\n\nR\n<<E>>"`, while the claim's
decomposition (text through the marker line, newline, re-indented
replacement, newline, text from the end marker line) predicts
`"<<S>>\nR\n<<E>>"`. -/
theorem c6_counterexample :
    replace_block "<<S>>\n\nX\n<<E>>".toList "<<S>>".toList "<<E>>".toList "R".toList
        = .ok "<<S>>\n\nR\n<<E>>".toList ∧
      "<<S>>\n\nR\n<<E>>".toList ≠ "<<S>>\nR\n<<E>>".toList :=
  ⟨rfl, by decide⟩

/-- Claim C6, amended: when the start match stays within the start marker's
own line (no newline inside the matched span) and the end match's indent
stays within the end marker's line, a successful `replace_block` output is
exactly: the original text through the end of the start match (whose last
line is the start-marker line: anchored start, whitespace indent, the
marker, then newline-free trailing whitespace), a newline, the replacement
re-indented with exactly the start-marker line's leading whitespace (blank
lines becoming the indent alone), a newline, then the original text from
the beginning of the end-marker line onward. -/
theorem c6_replace_block_frame {text S E R : Str} {p1 a1 e1 p2 a2 e2 : Nat}
    (hS : S ≠ []) (hSW : ∀ c ∈ S, isWS c = false)
    (h1 : searchPat S text = some (p1, a1, e1))
    (h2 : searchPat E text = some (p2, a2, e2))
    (h3 : e1 < p2)
    (hnl1 : ∀ c ∈ (text.drop p1).take (e1 - p1), c ≠ '\n')
    (hnl2 : ∀ c ∈ (text.drop p2).take a2, c ≠ '\n') :
    replace_block text S E R
        = .ok (text.take e1 ++ '\n' ::
            (indentRepl ((text.drop p1).take a1) R ++ '\n' :: text.drop p2)) ∧
      indentRepl ((text.drop p1).take a1) R
        = joinNl ((splitlines R).map (indentLine ((text.drop p1).take a1))) ∧
      (text.drop p1).take a1 = (text.drop p1).takeWhile isWS ∧
      (∃ P tws, text.take e1 = P ++ ((text.drop p1).take a1 ++ (S ++ tws)) ∧
        anchorOK P ∧ P.length = p1 ∧
        (∀ c ∈ tws, isWS c = true) ∧ (∀ c ∈ tws, c ≠ '\n') ∧
        (∀ c ∈ (text.drop p1).take a1, isWS c = true) ∧
        (∀ c ∈ (text.drop p1).take a1, c ≠ '\n')) ∧
      (∃ w2 rest2, text.drop p2 = w2 ++ (E ++ rest2) ∧ anchorOK (text.take p2) ∧
        (∀ c ∈ w2, isWS c = true) ∧ (∀ c ∈ w2, c ≠ '\n')) := by
  obtain ⟨m0, Srest, hSd⟩ : ∃ m0 Srest, S = m0 :: Srest := by
    rcases S with _ | ⟨x, xs⟩
    · exact absurd rfl hS
    · exact ⟨x, xs, rfl⟩
  obtain ⟨P, suf, tot, hdec, hp, he, hanch, hMA⟩ := SP_sound h1
  obtain ⟨w1, u1, v1, hsuf, hw1len, hw1, hu1, hv1, htot, -, -⟩ := MA_sound hMA
  have hdropP : text.drop p1 = w1 ++ (S ++ (u1 ++ v1)) := by
    rw [hdec, hp, List.drop_left, hsuf]
  have hind : (text.drop p1).take a1 = w1 := by
    rw [hdropP]
    exact List.take_left' hw1len
  have htext : text = (P ++ (w1 ++ (S ++ u1))) ++ v1 := by
    rw [hdec, hsuf]; simp [List.append_assoc]
  have hLlen : (P ++ (w1 ++ (S ++ u1))).length = e1 := by
    simp only [List.length_append]
    omega
  have hA : text.take e1 = P ++ (w1 ++ (S ++ u1)) := by
    rw [htext]
    exact List.take_left' hLlen
  have htaketot : (text.drop p1).take (e1 - p1) = w1 ++ (S ++ u1) := by
    rw [hdropP]
    have h9 : w1 ++ (S ++ (u1 ++ v1)) = (w1 ++ (S ++ u1)) ++ v1 := by
      simp [List.append_assoc]
    rw [h9]
    refine List.take_left' ?_
    simp only [List.length_append]
    omega
  rw [htaketot] at hnl1
  obtain ⟨Q, B, tot2, hdec2, hp2, he2, hanchQ, hMAB⟩ := SP_sound h2
  obtain ⟨w2, u2, v2, hsufB, hw2len, hw2, -, -, -, -, -⟩ := MA_sound hMAB
  have hdropQ : text.drop p2 = B := by
    rw [hdec2, hp2, List.drop_left]
  have htakeQ : text.take p2 = Q := by
    rw [hdec2, hp2]
    exact List.take_left Q B
  have hw2take : (text.drop p2).take a2 = w2 := by
    rw [hdropQ, hsufB]
    exact List.take_left' hw2len
  rw [hw2take] at hnl2
  refine ⟨replace_block_eq_ok h1 h2 h3, rfl, ?_, ?_, ?_⟩
  · rw [hind, hdropP, hSd, List.cons_append, takeWhile_ws_append w1 m0 (Srest ++ (u1 ++ v1)) hw1
      (by refine hSW m0 ?_; rw [hSd]; exact List.mem_cons_self _ _)]
  · refine ⟨P, u1, ?_, hanch, hp.symm, hu1, ?_, ?_, ?_⟩
    · rw [hA, hind]
    · intro c hc
      exact hnl1 c (List.mem_append_right _ (List.mem_append_right _ hc))
    · rw [hind]; exact hw1
    · intro c hc
      rw [hind] at hc
      exact hnl1 c (List.mem_append_left _ hc)
  · refine ⟨w2, u2 ++ v2, ?_, ?_, hw2, hnl2⟩
    · rw [hdropQ, hsufB]
    · rw [htakeQ]; exact hanchQ

/-- Witness for the amended claim C6 at a concrete document with four-space
indentation before both markers. -/
theorem c6_witness :
    replace_block "head\n    <<S>>\nbody\n    <<E>>\ntail".toList
        "<<S>>".toList "<<E>>".toList "A\nB".toList
      = .ok ("head\n    <<S>>\nbody\n    <<E>>\ntail".toList.take 14 ++ '\n' ::
          (indentRepl (("head\n    <<S>>\nbody\n    <<E>>\ntail".toList.drop 5).take 4)
              "A\nB".toList ++
            '\n' :: "head\n    <<S>>\nbody\n    <<E>>\ntail".toList.drop 20)) :=
  (@c6_replace_block_frame "head\n    <<S>>\nbody\n    <<E>>\ntail".toList
    "<<S>>".toList "<<E>>".toList "A\nB".toList 5 4 14 20 4 29
    (by decide) (by decide) (by decide) (by decide) (by decide) (by decide)
    (by decide)).1

/-! ## Claim C2 — error taxonomy and write gating -/

/-- Claim C2: `replace_block` fails with `MissingMarker` when the start or
the end marker pattern finds no match (in particular whenever the marker
string does not occur in the document at all), fails with
`MarkerOrderError` when the end match does not start strictly after the
start match ends, and `main` performs no write to the diagram document
until both splices succeed: on any such failure the file content is
unchanged. -/
theorem c2_replace_block_failures :
    (∀ text S E R : Str, searchPat S text = none →
      replace_block text S E R = .error (.MissingMarker S)) ∧
    (∀ (text S E R : Str) (r : Nat × Nat × Nat), searchPat S text = some r →
      searchPat E text = none →
      replace_block text S E R = .error (.MissingMarker E)) ∧
    (∀ (text S E R : Str) (p1 a1 e1 p2 a2 e2 : Nat),
      searchPat S text = some (p1, a1, e1) → searchPat E text = some (p2, a2, e2) →
      p2 ≤ e1 → replace_block text S E R = .error .MarkerOrderError) ∧
    (∀ text S E R : Str, containsSub S text = false →
      replace_block text S E R = .error (.MissingMarker S)) ∧
    (∀ (text S E R : Str) (r : Nat × Nat × Nat), searchPat S text = some r →
      containsSub E text = false →
      replace_block text S E R = .error (.MissingMarker E)) ∧
    (∀ (tokensText pumlText : Str) (er : SErr), mainPuml tokensText pumlText = .error er →
      pumlFileAfter tokensText pumlText = pumlText) ∧
    (∀ (tokensText pumlText : Str) (er : SErr),
      replace_block pumlText tsStartMark tsEndMark
          (joinNl (token_lines (parse_tokenkind tokensText))) = .error er →
      mainPuml tokensText pumlText = .error er) := by
  refine ⟨?_, ?_, ?_, ?_, ?_, ?_, ?_⟩
  · intro text S E R h
    unfold replace_block
    rw [h]
  · intro text S E R r h1 h2
    obtain ⟨p1, a1, e1⟩ := r
    unfold replace_block
    rw [h1, h2]
  · intro text S E R p1 a1 e1 p2 a2 e2 h1 h2 hle
    unfold replace_block
    rw [h1, h2]
    simp only [if_pos hle]
  · intro text S E R h
    rcases hs : searchPat S text with _ | r
    · unfold replace_block
      rw [hs]
    · rw [searchPat_some_containsSub hs] at h
      exact absurd h (by simp)
  · intro text S E R r h1 h2
    rcases hs : searchPat E text with _ | r2
    · obtain ⟨p1, a1, e1⟩ := r
      unfold replace_block
      rw [h1, hs]
    · rw [searchPat_some_containsSub hs] at h2
      exact absurd h2 (by simp)
  · intro tokensText pumlText er h
    unfold pumlFileAfter
    rw [h]
  · intro tokensText pumlText er h
    unfold mainPuml
    simp only [h]

/-- Witness for claim C2: a document without markers is rejected with
`MissingMarker`, and a failing run leaves the diagram file unchanged. -/
theorem c2_witness :
    replace_block "a\nb".toList "<<S>>".toList "<<E>>".toList "x".toList
        = .error (.MissingMarker "<<S>>".toList) ∧
      pumlFileAfter "tok".toList "no markers here".toList = "no markers here".toList :=
  ⟨c2_replace_block_failures.1 "a\nb".toList "<<S>>".toList "<<E>>".toList "x".toList
      (by decide),
    (c2_replace_block_failures.2.2.2.2.2.1) "tok".toList "no markers here".toList
      (.MissingMarker tsStartMark) rfl⟩

/-! ## Claim C7 — display resolver -/

/-- Claim C7: `display` is a pure function of the identifier and the literal
map, applying its rules in priority order: a mapped identifier returns the
literal verbatim (even when the identifier starts with `Kw`); otherwise a
`Kw`-prefixed identifier returns the upper-cased remainder; otherwise the
identifier itself. -/
theorem c7_display_rules :
    (∀ (v2l : List (Str × Str)) (name lit : Str),
      lookupAssoc v2l name = some lit → display v2l name = lit) ∧
    (∀ (v2l : List (Str × Str)) (name : Str),
      lookupAssoc v2l name = none → "Kw".toList.isPrefixOf name = true →
      display v2l name = (name.drop 2).map Char.toUpper) ∧
    (∀ (v2l : List (Str × Str)) (name : Str),
      lookupAssoc v2l name = none → "Kw".toList.isPrefixOf name = false →
      display v2l name = name) := by
  refine ⟨?_, ?_, ?_⟩
  · intro v2l name lit h
    unfold display
    rw [h]
  · intro v2l name h hkw
    unfold display
    rw [h, if_pos hkw]
  · intro v2l name h hkw
    unfold display
    rw [h, if_neg (by rw [hkw]; exact Bool.false_ne_true)]

/-- Witness for claim C7: the literal map wins even for a `Kw` identifier,
the `Kw` rule upper-cases, and other identifiers pass through. -/
theorem c7_witness :
    display [("KwIf".toList, "if".toList)] "KwIf".toList = "if".toList ∧
      display [] "KwElse".toList = "ELSE".toList ∧
      display [] "Plus".toList = "Plus".toList :=
  ⟨c7_display_rules.1 [("KwIf".toList, "if".toList)] "KwIf".toList "if".toList (by decide),
    by
      have h := c7_display_rules.2.1 [] "KwElse".toList (by decide) (by decide)
      rw [h]
      decide,
    c7_display_rules.2.2 [] "Plus".toList (by decide) (by decide)⟩

/-! ## Claim C5 — right-associativity annotation -/

/-- Rendering of an infix entry without the associativity annotation
(specification-side definition, used to state when the rendered line
carries the annotation). -/
def renderIxPlain (v2l : List (Str × Str)) (e : Nat × Nat × List Str) : Str :=
  natStr e.1 ++ "-".toList ++ natStr e.2.1 ++ ":   ".toList ++
    commaJoin (e.2.2.map (display v2l))

/-- Claim C5: a rendered infix entry carries the `" (right assoc)"`
annotation exactly when its left binding power strictly exceeds its right
binding power; with `left ≤ right` the rendered line is the plain line with
no annotation. -/
theorem c5_right_assoc_iff :
    ∀ (v2l : List (Str × Str)) (l r : Nat) (names : List Str),
      (renderIxLine v2l (l, r, names)
          = renderIxPlain v2l (l, r, names) ++ " (right assoc)".toList ↔ r < l) ∧
      (¬ r < l → renderIxLine v2l (l, r, names) = renderIxPlain v2l (l, r, names)) := by
  intro v2l l r names
  have hbase : renderIxLine v2l (l, r, names)
      = renderIxPlain v2l (l, r, names) ++ (if r < l then " (right assoc)".toList else []) := by
    unfold renderIxLine renderIxPlain
    simp [List.append_assoc]
  constructor
  · constructor
    · intro h
      by_contra hc
      rw [hbase, if_neg hc] at h
      have h9 := congrArg List.length h
      simp at h9
    · intro h
      rw [hbase, if_pos h]
  · intro h
    rw [hbase, if_neg h]
    simp

/-- Witness for claim C5: `(5, 4)` is annotated, `(10, 11)` is not. -/
theorem c5_witness :
    renderIxLine [] (5, 4, ["Assign".toList])
        = renderIxPlain [] (5, 4, ["Assign".toList]) ++ " (right assoc)".toList ∧
      renderIxLine [] (10, 11, ["Plus".toList])
        = renderIxPlain [] (10, 11, ["Plus".toList]) :=
  ⟨(c5_right_assoc_iff [] 5 4 ["Assign".toList]).1.mpr (by decide),
    (c5_right_assoc_iff [] 10 11 ["Plus".toList]).2 (by decide)⟩

/-! ## Claim C4 — ordering of the rendered precedence block -/

theorem mem_insIx {z x : Nat × Nat × List Str} {l : List (Nat × Nat × List Str)} :
    z ∈ insIx x l ↔ z = x ∨ z ∈ l := by
  induction l with
  | nil => simp [insIx]
  | cons y ys ih =>
    rw [insIx]
    by_cases hle : y.1 ≤ x.1
    · rw [if_pos hle]
      simp only [List.mem_cons, ih]
      tauto
    · rw [if_neg hle]
      simp only [List.mem_cons]

theorem insIx_pairwise (x : Nat × Nat × List Str) (l : List (Nat × Nat × List Str))
    (h : List.Pairwise (fun a b => a.1 ≤ b.1) l) :
    List.Pairwise (fun a b => a.1 ≤ b.1) (insIx x l) := by
  induction l with
  | nil => simp [insIx]
  | cons y ys ih =>
    rcases List.pairwise_cons.mp h with ⟨hy, hys⟩
    rw [insIx]
    by_cases hle : y.1 ≤ x.1
    · rw [if_pos hle]
      refine List.pairwise_cons.mpr ⟨?_, ih hys⟩
      intro z hz
      rcases mem_insIx.mp hz with rfl | hz2
      · exact hle
      · exact hy z hz2
    · rw [if_neg hle]
      refine List.pairwise_cons.mpr ⟨?_, h⟩
      intro z hz
      rcases List.mem_cons.mp hz with rfl | hz2
      · omega
      · have := hy z hz2
        omega

theorem insIx_filter_eq (x : Nat × Nat × List Str) (l : List (Nat × Nat × List Str))
    (k : Nat) (h : List.Pairwise (fun a b => a.1 ≤ b.1) l) :
    (insIx x l).filter (fun e => e.1 = k)
      = if x.1 = k then l.filter (fun e => e.1 = k) ++ [x]
        else l.filter (fun e => e.1 = k) := by
  induction l with
  | nil =>
    by_cases hk : x.1 = k <;> simp [insIx, hk]
  | cons y ys ih =>
    rcases List.pairwise_cons.mp h with ⟨hy, hys⟩
    rw [insIx]
    by_cases hle : y.1 ≤ x.1
    · rw [if_pos hle, List.filter_cons, List.filter_cons, ih hys]
      by_cases hyk : y.1 = k
      · by_cases hk : x.1 = k <;> simp [hyk, hk]
      · by_cases hk : x.1 = k <;> simp [hyk, hk]
    · rw [if_neg hle]
      push_neg at hle
      by_cases hk : x.1 = k
      · rw [if_pos hk]
        have hempty : (y :: ys).filter (fun e => e.1 = k) = [] := by
          rw [List.filter_eq_nil_iff]
          intro z hz
          rcases List.mem_cons.mp hz with rfl | hz2
          · simp
            omega
          · have := hy z hz2
            simp
            omega
        rw [List.filter_cons, if_pos (by simp [hk]), hempty]
        simp
      · rw [if_neg hk, List.filter_cons, if_neg (by simp [hk])]

theorem sortIx_aux (l : List (Nat × Nat × List Str)) :
    ∀ acc, List.Pairwise (fun a b => a.1 ≤ b.1) acc →
      List.Pairwise (fun a b => a.1 ≤ b.1) (l.foldl (fun a x => insIx x a) acc) ∧
      ∀ k, (l.foldl (fun a x => insIx x a) acc).filter (fun e => e.1 = k)
          = acc.filter (fun e => e.1 = k) ++ l.filter (fun e => e.1 = k) := by
  induction l with
  | nil =>
    intro acc hacc
    exact ⟨hacc, fun k => by simp⟩
  | cons x xs ih =>
    intro acc hacc
    simp only [List.foldl_cons]
    obtain ⟨h1, h2⟩ := ih (insIx x acc) (insIx_pairwise x acc hacc)
    refine ⟨h1, ?_⟩
    intro k
    rw [h2 k, insIx_filter_eq x acc k hacc, List.filter_cons]
    by_cases hk : x.1 = k
    · rw [if_pos hk, if_pos (by simp [hk])]
      simp [List.append_assoc]
    · rw [if_neg hk, if_neg (by simp [hk])]

/-- Claim C4: the rendered precedence block is the header line followed by
the infix entries sorted ascending by left binding power with a stable sort
(per key, the sorted list preserves the scan order), then all prefix entry
lines in their original scan order. -/
theorem c4_precedence_block_order :
    ∀ (text : Str) (v2l : List (Str × Str)),
      (parse_binding_powers text v2l).1
          = precHeader :: (sortIx (bpScan text).ixEntries).map (renderIxLine v2l) ∧
      (parse_binding_powers text v2l).2
          = (bpScan text).pxEntries.map (renderPxLine v2l) ∧
      precedence_lines text v2l
          = (parse_binding_powers text v2l).1 ++ (parse_binding_powers text v2l).2 ∧
      List.Pairwise (fun a b => a.1 ≤ b.1) (sortIx (bpScan text).ixEntries) ∧
      (∀ k, (sortIx (bpScan text).ixEntries).filter (fun e => e.1 = k)
          = (bpScan text).ixEntries.filter (fun e => e.1 = k)) := by
  intro text v2l
  obtain ⟨h1, h2⟩ := sortIx_aux (bpScan text).ixEntries [] (by simp)
  refine ⟨rfl, rfl, rfl, h1, ?_⟩
  intro k
  rw [sortIx, h2 k]
  simp

/-! ## Claim C3 — section-count sum invariant of `parse_tokenkind` -/

/-- Invariant of the taxonomy scan state: the counter dict keeps exactly the
fixed key set `SECTION_MAP.values()`, and the sticky section, when set, is
one of those values. -/
def SecInv (st : TKState) : Prop :=
  st.bySec.map Prod.fst = sectionNames ∧
  ∀ s, st.curSec = some s → s ∈ sectionNames

/-- Per counted variant, whether a section was active at the moment it was
counted (the section header of the same line, if any, applies first). -/
def tkStepFlags (st : TKState) (line : Str) : List Bool :=
  if st.done then []
  else if !st.inEnum then []
  else if stripStartsBrace line then []
  else
    match findTokenLit line with
    | some _ => []
    | none =>
      match variantOf line with
      | some _ => [((applySecHdr st line).curSec).isSome]
      | none => []

/-- Flags of all counted variants over a line list, threading the state. -/
def tkFlagsAux : TKState → List Str → List Bool
  | _, [] => []
  | st, l :: rest => tkStepFlags st l ++ tkFlagsAux (tkStep st l) rest

/-- Flags of all variants counted by `parse_tokenkind` on this text. -/
def tkFlags (text : Str) : List Bool := tkFlagsAux tkInit (splitlines text)

theorem bumpAssoc_keys (l : List (Str × Nat)) (k : Str) :
    (bumpAssoc l k).map Prod.fst = l.map Prod.fst := by
  induction l with
  | nil => rfl
  | cons p rest ih =>
    obtain ⟨k0, v0⟩ := p
    rw [bumpAssoc]
    by_cases hk : k0 = k <;> simp [hk, ih]

theorem bumpAssoc_sum (l : List (Str × Nat)) (k : Str) (h : k ∈ l.map Prod.fst) :
    sumVals (bumpAssoc l k) = sumVals l + 1 := by
  induction l with
  | nil => simp at h
  | cons p rest ih =>
    obtain ⟨k0, v0⟩ := p
    rw [bumpAssoc]
    by_cases hk : k0 = k
    · rw [if_pos hk]
      simp only [sumVals, List.map_cons, List.sum_cons]
      omega
    · rw [if_neg hk]
      simp only [List.map_cons, List.mem_cons] at h
      rcases h with h | h
      · exact absurd h.symm hk
      · have h2 := ih h
        simp only [sumVals, List.map_cons, List.sum_cons] at h2 ⊢
        omega

theorem secFromHeader_mem (hdr v : Str) (h : secFromHeader hdr = some v) :
    v ∈ sectionNames := by
  unfold secFromHeader at h
  cases hf : SECTION_MAP.find? (fun kv => containsSub kv.1 hdr) with
  | none => rw [hf] at h; simp at h
  | some kv =>
    rw [hf] at h
    simp only [Option.map_some'] at h
    injection h with h
    subst h
    exact List.mem_map.mpr ⟨kv, List.mem_of_find?_eq_some hf, rfl⟩

theorem applySecHdr_frame (st : TKState) (line : Str) :
    (applySecHdr st line).bySec = st.bySec ∧
    (applySecHdr st line).total = st.total := by
  unfold applySecHdr
  cases h1 : findSecHdr line with
  | none => exact ⟨rfl, rfl⟩
  | some g =>
    cases h2 : secFromHeader (stripWS g) with
    | none => simp [h2]
    | some v => simp [h2]

theorem applySecHdr_inv (st : TKState) (line : Str) (h : SecInv st) :
    SecInv (applySecHdr st line) := by
  unfold applySecHdr
  cases h1 : findSecHdr line with
  | none => exact h
  | some g =>
    cases h2 : secFromHeader (stripWS g) with
    | none =>
      simp only [h2]
      exact h
    | some v =>
      simp only [h2]
      refine ⟨h.1, ?_⟩
      intro s hs
      injection hs with hs
      subst hs
      exact secFromHeader_mem _ _ h2

theorem countVariant_facts (st : TKState) (name : Str) :
    (countVariant st name).total = st.total + 1 ∧
    (countVariant st name).curSec = st.curSec ∧
    (countVariant st name).bySec
      = (match st.curSec with
         | some sec => bumpAssoc st.bySec sec
         | none => st.bySec) := by
  cases hc : st.curSec with
  | none =>
    cases hp : st.pending with
    | none => simp [countVariant, hc, hp]
    | some lit =>
      simp only [countVariant, hc, hp]
      split <;> simp
  | some sec =>
    cases hp : st.pending with
    | none => simp [countVariant, hc, hp]
    | some lit =>
      simp only [countVariant, hc, hp]
      split <;> simp

theorem tkStep_balance (st : TKState) (line : Str) (h : SecInv st) :
    SecInv (tkStep st line) ∧
    (tkStep st line).total + sumVals st.bySec
      = st.total + sumVals (tkStep st line).bySec
          + List.count false (tkStepFlags st line) := by
  by_cases hd : st.done
  · simp only [tkStep, tkStepFlags, hd, if_true]
    exact ⟨h, by simp⟩
  · simp only [Bool.not_eq_true] at hd
    by_cases hin : st.inEnum
    · by_cases hbr : stripStartsBrace line
      · simp only [tkStep, tkStepFlags, hd, hin, hbr, Bool.not_true,
          Bool.false_eq_true, if_false, if_true]
        exact ⟨h, by simp⟩
      · simp only [Bool.not_eq_true] at hbr
        have hA := applySecHdr_frame st line
        have hAinv := applySecHdr_inv st line h
        simp only [tkStep, tkStepFlags, hd, hin, hbr, Bool.not_true,
          Bool.false_eq_true, if_false]
        cases hlit : findTokenLit line with
        | some lit =>
          refine ⟨⟨hA.1 ▸ hAinv.1, hAinv.2⟩, ?_⟩
          simp [hA.1, hA.2]
        | none =>
          cases hvar : variantOf line with
          | none => exact ⟨hAinv, by simp [hA.1, hA.2]⟩
          | some name =>
            have hC := countVariant_facts (applySecHdr st line) name
            cases hcs : (applySecHdr st line).curSec with
            | none =>
              refine ⟨⟨?_, ?_⟩, ?_⟩
              · rw [hC.2.2]
                simp only [hcs]
                exact hA.1 ▸ hAinv.1
              · intro s hs
                rw [hC.2.1, hcs] at hs
                exact absurd hs (by simp)
              · rw [hC.1, hC.2.2]
                simp only [hcs, hA.1, hA.2, List.count_cons, List.count_nil]
                simp
                omega
            | some sec =>
              have hsec : sec ∈ sectionNames := hAinv.2 sec hcs
              have hkey : sec ∈ (applySecHdr st line).bySec.map Prod.fst := by
                rw [hAinv.1]
                exact hsec
              refine ⟨⟨?_, ?_⟩, ?_⟩
              · rw [hC.2.2]
                simp only [hcs]
                rw [bumpAssoc_keys]
                exact hA.1 ▸ hAinv.1
              · intro s hs
                rw [hC.2.1, hcs] at hs
                injection hs with hs
                subst hs
                exact hsec
              · rw [hC.1, hC.2.2]
                simp only [hcs]
                rw [bumpAssoc_sum _ _ hkey]
                simp only [hA.1, hA.2, hcs, List.count_cons, List.count_nil]
                simp
                omega
    · simp only [Bool.not_eq_true] at hin
      simp only [tkStep, tkStepFlags, hd, hin, Bool.not_false, Bool.false_eq_true,
        if_false, if_true]
      by_cases hp : hasPubEnum line
      · simp only [hp, if_true]
        exact ⟨⟨h.1, h.2⟩, by simp⟩
      · simp only [hp, Bool.false_eq_true, if_false]
        exact ⟨h, by simp⟩

theorem tkFold_balance (lines : List Str) :
    ∀ st, SecInv st →
      SecInv (lines.foldl tkStep st) ∧
      (lines.foldl tkStep st).total + sumVals st.bySec
        = st.total + sumVals (lines.foldl tkStep st).bySec
            + List.count false (tkFlagsAux st lines) := by
  induction lines with
  | nil =>
    intro st hst
    exact ⟨hst, by simp [tkFlagsAux]⟩
  | cons l rest ih =>
    intro st hst
    obtain ⟨h1, e1⟩ := tkStep_balance st l hst
    obtain ⟨h2, e2⟩ := ih (tkStep st l) h1
    refine ⟨h2, ?_⟩
    simp only [List.foldl_cons] at e2 ⊢
    rw [tkFlagsAux, List.count_append]
    omega

/-- Claim C3: for every input text the taxonomy statistics satisfy
`sum(by_section.values()) ≤ total`, with equality exactly when every counted
variant was counted while a section was active. -/
theorem c3_section_sum_invariant :
    ∀ text : Str,
      sumVals (parse_tokenkind text).by_section ≤ (parse_tokenkind text).total ∧
      (sumVals (parse_tokenkind text).by_section = (parse_tokenkind text).total ↔
        ∀ b ∈ tkFlags text, b = true) := by
  intro text
  have hinit : SecInv tkInit := by
    constructor
    · simp [tkInit, sectionNames, List.map_map]
    · intro s hs
      exact absurd hs (by simp [tkInit])
  obtain ⟨_, e⟩ := tkFold_balance (splitlines text) tkInit hinit
  have hzero : sumVals tkInit.bySec = 0 := by rfl
  have htot : tkInit.total = 0 := rfl
  rw [hzero, htot] at e
  have heq : (parse_tokenkind text).total = (tkScan text).total := rfl
  have heq2 : (parse_tokenkind text).by_section = (tkScan text).bySec := rfl
  rw [heq, heq2]
  unfold tkScan
  constructor
  · omega
  · rw [tkFlags] at *
    constructor
    · intro hEq
      have hcf : List.count false (tkFlagsAux tkInit (splitlines text)) = 0 := by omega
      intro b hb
      cases b with
      | true => rfl
      | false =>
        exact absurd hb (List.count_eq_zero.mp hcf)
    · intro hall
      have hcf : List.count false (tkFlagsAux tkInit (splitlines text)) = 0 := by
        rw [List.count_eq_zero]
        intro hmem
        exact Bool.false_ne_true (hall false hmem)
      omega

/-! ## Claim C8 — the key set of `by_section` -/

/-- Claim C8, counterexample to the claimed count: the fixed key set of
`by_section` has seven entries, not six, already on the empty input. -/
theorem c8_counterexample :
    ((parse_tokenkind []).by_section.map Prod.fst).length = 7 ∧
    ¬ ((parse_tokenkind []).by_section.map Prod.fst).length = 6 := by
  decide

/-- Claim C8 (amended): for every input text the key list of `by_section`
is exactly `SECTION_MAP.values()` in insertion order — seven sections,
zero-filled when nothing was attributed to them — regardless of which
headers occur in the input. -/
theorem c8_by_section_keys :
    ∀ text : Str,
      (parse_tokenkind text).by_section.map Prod.fst = sectionNames ∧
      sectionNames.length = 7 := by
  intro text
  have hinit : SecInv tkInit := by
    constructor
    · simp [tkInit, sectionNames, List.map_map]
    · intro s hs
      exact absurd hs (by simp [tkInit])
  obtain ⟨hfin, _⟩ := tkFold_balance (splitlines text) tkInit hinit
  exact ⟨hfin.1, rfl⟩

/-! ## Claim C9 — the keywords list -/

theorem lexLt_irrefl : ∀ a : Str, lexLt a a = false := by
  intro a
  induction a with
  | nil => rfl
  | cons x xs ih => rw [lexLt, if_neg (lt_irrefl x), if_neg (lt_irrefl x)]; exact ih

theorem lexLt_trans (a : Str) : ∀ b c : Str,
    lexLt a b = true → lexLt b c = true → lexLt a c = true := by
  induction a with
  | nil =>
    intro b c h1 h2
    cases b with
    | nil => simp [lexLt] at h1
    | cons y ys =>
      cases c with
      | nil => simp [lexLt] at h2
      | cons z zs => simp [lexLt]
  | cons x xs ih =>
    intro b c h1 h2
    cases b with
    | nil => simp [lexLt] at h1
    | cons y ys =>
      cases c with
      | nil => simp [lexLt] at h2
      | cons z zs =>
        rw [lexLt] at h1 h2 ⊢
        by_cases hxy : x < y
        · by_cases hyz : y < z
          · rw [if_pos (lt_trans hxy hyz)]
          · by_cases hzy : z < y
            · rw [if_neg hyz, if_pos hzy] at h2
              exact absurd h2 (by simp)
            · have hyzeq : y = z := le_antisymm (not_lt.mp hzy) (not_lt.mp hyz)
              subst hyzeq
              rw [if_pos hxy]
        · by_cases hyx : y < x
          · rw [if_neg hxy, if_pos hyx] at h1
            exact absurd h1 (by simp)
          · have hxyeq : x = y := le_antisymm (not_lt.mp hyx) (not_lt.mp hxy)
            subst hxyeq
            rw [if_neg hxy, if_neg hxy] at h1
            by_cases hxz : x < z
            · rw [if_pos hxz]
            · by_cases hzx : z < x
              · rw [if_neg hxz, if_pos hzx] at h2
                exact absurd h2 (by simp)
              · have hxzeq : x = z := le_antisymm (not_lt.mp hzx) (not_lt.mp hxz)
                subst hxzeq
                rw [if_neg hxz, if_neg hxz] at h2 ⊢
                exact ih ys zs h1 h2

theorem lexLt_connex (a : Str) : ∀ b : Str,
    a ≠ b → lexLt a b = true ∨ lexLt b a = true := by
  induction a with
  | nil =>
    intro b hne
    cases b with
    | nil => exact absurd rfl hne
    | cons y ys => left; simp [lexLt]
  | cons x xs ih =>
    intro b hne
    cases b with
    | nil => right; simp [lexLt]
    | cons y ys =>
      by_cases hxy : x < y
      · left; rw [lexLt, if_pos hxy]
      · by_cases hyx : y < x
        · right; rw [lexLt, if_pos hyx]
        · have hxyeq : x = y := le_antisymm (not_lt.mp hyx) (not_lt.mp hxy)
          subst hxyeq
          have hne2 : xs ≠ ys := fun h => hne (by rw [h])
          rcases ih ys hne2 with h | h
          · left; rw [lexLt, if_neg hxy, if_neg hxy]; exact h
          · right; rw [lexLt, if_neg hxy, if_neg hxy]; exact h

theorem mem_insSorted (z x : Str) (l : List Str) :
    z ∈ insSorted x l ↔ z = x ∨ z ∈ l := by
  induction l with
  | nil => simp [insSorted]
  | cons y ys ih =>
    rw [insSorted]
    by_cases h1 : lexLt x y
    · rw [if_pos h1]
      simp only [List.mem_cons]
    · rw [if_neg h1]
      by_cases h2 : x = y
      · rw [if_pos h2]
        subst h2
        simp only [List.mem_cons]
        tauto
      · rw [if_neg h2]
        simp only [List.mem_cons, ih]
        tauto

theorem pairwise_insSorted (x : Str) (l : List Str)
    (h : List.Pairwise (fun a b => lexLt a b = true) l) :
    List.Pairwise (fun a b => lexLt a b = true) (insSorted x l) := by
  induction l with
  | nil => simp [insSorted]
  | cons y ys ih =>
    rcases List.pairwise_cons.mp h with ⟨hy, hys⟩
    rw [insSorted]
    by_cases h1 : lexLt x y
    · rw [if_pos h1]
      refine List.pairwise_cons.mpr ⟨?_, h⟩
      intro z hz
      rcases List.mem_cons.mp hz with rfl | hz2
      · exact h1
      · exact lexLt_trans x y z h1 (hy z hz2)
    · rw [if_neg h1]
      by_cases h2 : x = y
      · rw [if_pos h2]
        exact h
      · rw [if_neg h2]
        refine List.pairwise_cons.mpr ⟨?_, ih hys⟩
        intro z hz
        rcases (mem_insSorted z x ys).mp hz with rfl | hz2
        · rcases lexLt_connex z y h2 with hc | hc
          · exact absurd hc h1
          · exact hc
        · exact hy z hz2

theorem sortDedup_aux (l : List Str) :
    ∀ acc, List.Pairwise (fun a b => lexLt a b = true) acc →
      List.Pairwise (fun a b => lexLt a b = true)
          (l.foldl (fun a x => insSorted x a) acc) ∧
      ∀ z, z ∈ l.foldl (fun a x => insSorted x a) acc ↔ z ∈ acc ∨ z ∈ l := by
  induction l with
  | nil =>
    intro acc h
    exact ⟨h, fun z => by simp⟩
  | cons x xs ih =>
    intro acc h
    simp only [List.foldl_cons]
    obtain ⟨h1, h2⟩ := ih (insSorted x acc) (pairwise_insSorted x acc h)
    refine ⟨h1, ?_⟩
    intro z
    rw [h2 z, mem_insSorted]
    simp only [List.mem_cons]
    tauto

theorem applySecHdr_frame2 (st : TKState) (line : Str) :
    (applySecHdr st line).pending = st.pending ∧
    (applySecHdr st line).kwLits = st.kwLits := by
  unfold applySecHdr
  cases h1 : findSecHdr line with
  | none => exact ⟨rfl, rfl⟩
  | some g =>
    cases h2 : secFromHeader (stripWS g) with
    | none => simp [h2]
    | some v => simp [h2]

theorem countVariant_kwLits (st : TKState) (name : Str) :
    (st.pending = none → (countVariant st name).kwLits = st.kwLits) ∧
    (∀ lit, st.pending = some lit →
      ("Kw".toList.isPrefixOf name = true →
        (countVariant st name).kwLits = st.kwLits ++ [lit]) ∧
      ("Kw".toList.isPrefixOf name = false →
        (countVariant st name).kwLits = st.kwLits)) := by
  constructor
  · intro hp
    cases hc : st.curSec <;> simp [countVariant, hc, hp]
  · intro lit hp
    constructor
    · intro hk
      cases hc : st.curSec <;>
        · simp only [countVariant, hc, hp]
          rw [if_pos hk]
    · intro hk
      cases hc : st.curSec <;>
        · simp only [countVariant, hc, hp]
          rw [if_neg (fun hcontra => Bool.false_ne_true (hk ▸ hcontra))]

theorem tkStep_kwLits (st : TKState) (line : Str) :
    (tkStep st line).kwLits = st.kwLits ∨
    ∃ lit name, st.pending = some lit ∧ findTokenLit line = none ∧
      variantOf line = some name ∧ "Kw".toList.isPrefixOf name = true ∧
      (tkStep st line).kwLits = st.kwLits ++ [lit] := by
  by_cases hd : st.done
  · left
    simp [tkStep, hd]
  · simp only [Bool.not_eq_true] at hd
    by_cases hin : st.inEnum
    · by_cases hbr : stripStartsBrace line
      · left
        simp [tkStep, hd, hin, hbr]
      · simp only [Bool.not_eq_true] at hbr
        have hA := applySecHdr_frame2 st line
        simp only [tkStep, hd, hin, hbr, Bool.not_true, Bool.false_eq_true, if_false]
        cases hlit : findTokenLit line with
        | some lit =>
          left
          exact hA.2
        | none =>
          cases hvar : variantOf line with
          | none =>
            left
            exact hA.2
          | some name =>
            have hC := countVariant_kwLits (applySecHdr st line) name
            cases hp : st.pending with
            | none =>
              left
              rw [hC.1 (hA.1.trans hp)]
              exact hA.2
            | some lit =>
              cases hk : "Kw".toList.isPrefixOf name with
              | true =>
                right
                refine ⟨lit, name, rfl, rfl, rfl, hk, ?_⟩
                rw [(hC.2 lit (hA.1.trans hp)).1 hk, hA.2]
              | false =>
                left
                rw [(hC.2 lit (hA.1.trans hp)).2 hk]
                exact hA.2
    · simp only [Bool.not_eq_true] at hin
      by_cases hp : hasPubEnum line
      · left
        simp [tkStep, hd, hin, hp]
      · left
        simp [tkStep, hd, hin, hp]

theorem tkFold_kwLits_mem (lines : List Str) :
    ∀ st z, z ∈ (lines.foldl tkStep st).kwLits → z ∈ st.kwLits ∨
      ∃ st2 line, line ∈ lines ∧ z ∈ (tkStep st2 line).kwLits ∧
        z ∉ st2.kwLits := by
  induction lines with
  | nil =>
    intro st z hz
    exact Or.inl hz
  | cons l rest ih =>
    intro st z hz
    simp only [List.foldl_cons] at hz
    rcases ih (tkStep st l) z hz with h | ⟨st2, line, hm, hz2, hnz⟩
    · by_cases hz0 : z ∈ st.kwLits
      · exact Or.inl hz0
      · exact Or.inr ⟨st, l, List.mem_cons_self l rest, h, hz0⟩
    · exact Or.inr ⟨st2, line, List.mem_cons_of_mem l hm, hz2, hnz⟩

/-- Claim C9: the keywords list of `parse_tokenkind` is strictly sorted in
code-point order with no duplicates, its members are exactly the collected
keyword literals, and a scan step only ever extends the collected literals
by a literal that was pending immediately before a `Kw`-prefixed variant. -/
theorem c9_keywords_sorted_provenance :
    ∀ text : Str,
      List.Pairwise (fun a b => lexLt a b = true) (parse_tokenkind text).keywords ∧
      (parse_tokenkind text).keywords.Nodup ∧
      (∀ k, k ∈ (parse_tokenkind text).keywords ↔ k ∈ (tkScan text).kwLits) ∧
      (∀ st line,
        (tkStep st line).kwLits = st.kwLits ∨
        ∃ lit name, st.pending = some lit ∧ findTokenLit line = none ∧
          variantOf line = some name ∧ "Kw".toList.isPrefixOf name = true ∧
          (tkStep st line).kwLits = st.kwLits ++ [lit]) := by
  intro text
  obtain ⟨hpw, hmem⟩ := sortDedup_aux (tkScan text).kwLits [] List.Pairwise.nil
  have hkw : (parse_tokenkind text).keywords = sortDedup (tkScan text).kwLits := rfl
  refine ⟨?_, ?_, ?_, fun st line => tkStep_kwLits st line⟩
  · rw [hkw]
    exact hpw
  · rw [hkw]
    refine hpw.imp ?_
    intro a b hab heq
    subst heq
    rw [lexLt_irrefl] at hab
    exact Bool.false_ne_true hab
  · intro k
    rw [hkw, sortDedup, hmem k]
    simp

/-! ## Claim C10 — the mode machine of `parse_binding_powers` -/

/-- What a line contributes in prefix mode when it carries no infix marker:
the prefix-marker check fires first and contributes nothing; otherwise the
line yields an entry exactly when it contains `=>`, does not contain
`_ =>`, and an integer follows some `=>`. -/
def pxExtract (line : Str) : Option (Nat × List Str) :=
  if containsSub fnPxMark line then none
  else if !containsSub arrowSub line then none
  else if containsSub wildArrowSub line then none
  else
    match findArrowNum line with
    | none => none
    | some bp => some (bp, armNames line)

theorem bpStep_px (ixe : List (Nat × Nat × List Str)) (pxe : List (Nat × List Str))
    (l : Str) (hno : containsSub fnIxMark l = false) :
    bpStep ⟨false, true, ixe, pxe⟩ l
      = ⟨false, true, ixe, pxe ++ (pxExtract l).toList⟩ := by
  rw [bpStep]
  rw [if_neg (fun hc => Bool.false_ne_true (hno ▸ hc))]
  by_cases hpx : containsSub fnPxMark l
  · simp [pxExtract, hpx]
  · by_cases ha : containsSub arrowSub l
    · by_cases hw : containsSub wildArrowSub l
      · simp [pxExtract, hpx, ha, hw]
      · cases hf : findArrowNum l with
        | none => simp [pxExtract, hpx, ha, hw, hf]
        | some bp => simp [pxExtract, hpx, ha, hw, hf]
    · simp [pxExtract, hpx, ha]

theorem bpStep_ix (px : Bool) (ixe : List (Nat × Nat × List Str))
    (pxe : List (Nat × List Str)) (l : Str)
    (hno : containsSub fnPxMark l = false) :
    (bpStep ⟨true, px, ixe, pxe⟩ l).inIx = true ∧
    (bpStep ⟨true, px, ixe, pxe⟩ l).pxEntries = pxe := by
  rw [bpStep]
  by_cases hix : containsSub fnIxMark l
  · simp [hix]
  · rw [if_neg hix]
    rw [if_neg (fun hc => Bool.false_ne_true (hno ▸ hc))]
    rw [if_pos rfl]
    by_cases ha : containsSub arrowSub l
    · by_cases hw : containsSub wildArrowSub l
      · simp [ha, hw]
      · cases hf : findPairParen l with
        | none => simp [ha, hw, hf]
        | some p =>
          obtain ⟨a, b⟩ := p
          simp [ha, hw, hf]
    · simp [ha]

theorem bp_px_fold (lines : List Str) :
    ∀ (ixe : List (Nat × Nat × List Str)) (pxe : List (Nat × List Str)),
      (∀ l ∈ lines, containsSub fnIxMark l = false) →
      lines.foldl bpStep ⟨false, true, ixe, pxe⟩
        = ⟨false, true, ixe, pxe ++ lines.filterMap pxExtract⟩ := by
  induction lines with
  | nil =>
    intro ixe pxe h
    simp
  | cons l rest ih =>
    intro ixe pxe h
    have h1 : containsSub fnIxMark l = false := h l (List.mem_cons_self l rest)
    have h2 : ∀ l2 ∈ rest, containsSub fnIxMark l2 = false :=
      fun l2 hm => h l2 (List.mem_cons_of_mem l hm)
    simp only [List.foldl_cons]
    rw [bpStep_px ixe pxe l h1, ih _ _ h2]
    cases hf : pxExtract l with
    | none => simp [List.filterMap_cons, hf]
    | some e => simp [List.filterMap_cons, hf]

theorem bp_ix_fold (lines : List Str) :
    ∀ (px : Bool) (ixe : List (Nat × Nat × List Str)) (pxe : List (Nat × List Str)),
      (∀ l ∈ lines, containsSub fnPxMark l = false) →
      (lines.foldl bpStep ⟨true, px, ixe, pxe⟩).inIx = true ∧
      (lines.foldl bpStep ⟨true, px, ixe, pxe⟩).pxEntries = pxe := by
  induction lines with
  | nil =>
    intro px ixe pxe h
    exact ⟨rfl, rfl⟩
  | cons l rest ih =>
    intro px ixe pxe h
    have h1 : containsSub fnPxMark l = false := h l (List.mem_cons_self l rest)
    have h2 : ∀ l2 ∈ rest, containsSub fnPxMark l2 = false :=
      fun l2 hm => h l2 (List.mem_cons_of_mem l hm)
    simp only [List.foldl_cons]
    obtain ⟨e1, e2⟩ := bpStep_ix px ixe pxe l h1
    rcases hst : bpStep ⟨true, px, ixe, pxe⟩ l with ⟨ix2, px2, ixe2, pxe2⟩
    rw [hst] at e1 e2
    have e1' : ix2 = true := e1
    have e2' : pxe2 = pxe := e2
    subst e1'
    subst e2'
    exact ih px2 ixe2 _ h2

/-- Claim C10, counterexample to unconditional prefix-mode persistence: after
the prefix marker, a later line containing the infix marker re-enters infix
mode, so a following line that contains `=>`, lacks `_ =>` and has an
integer after `=>` produces no prefix entry — while without the re-entry
line the same line does. -/
theorem c10_counterexample :
    (bpScan "fn prefix_binding_power\nfn infix_binding_power\nX => 3".toList).pxEntries
        = [] ∧
    containsSub arrowSub "X => 3".toList = true ∧
    containsSub wildArrowSub "X => 3".toList = false ∧
    findArrowNum "X => 3".toList = some 3 ∧
    (bpScan "fn prefix_binding_power\nX => 3".toList).pxEntries = [(3, [['X']])] := by
  decide

/-- Claim C10 (amended): prefix mode persists and collects exactly the
qualifying lines only as long as no later line contains the infix marker —
such a line re-enters infix mode; symmetrically, infix mode persists (with
no prefix entry ever added) as long as no line contains the prefix marker. -/
theorem c10_mode_machine :
    (∀ (lines : List Str) (ixe : List (Nat × Nat × List Str))
        (pxe : List (Nat × List Str)),
      (∀ l ∈ lines, containsSub fnIxMark l = false) →
      lines.foldl bpStep ⟨false, true, ixe, pxe⟩
        = ⟨false, true, ixe, pxe ++ lines.filterMap pxExtract⟩) ∧
    (∀ (lines : List Str) (px : Bool) (ixe : List (Nat × Nat × List Str))
        (pxe : List (Nat × List Str)),
      (∀ l ∈ lines, containsSub fnPxMark l = false) →
      (lines.foldl bpStep ⟨true, px, ixe, pxe⟩).inIx = true ∧
      (lines.foldl bpStep ⟨true, px, ixe, pxe⟩).pxEntries = pxe) :=
  ⟨fun lines ixe pxe h => bp_px_fold lines ixe pxe h,
   fun lines px ixe pxe h => bp_ix_fold lines px ixe pxe h⟩

theorem c10_witness :
    (["Y => 7".toList].foldl bpStep ⟨false, true, [], []⟩).pxEntries
        = [(7, [['Y']])] ∧
    (["A => (1, 2)".toList].foldl bpStep ⟨true, false, [], []⟩).inIx = true := by
  constructor
  · rw [c10_mode_machine.1 ["Y => 7".toList] [] [] (by decide)]
    decide
  · exact (c10_mode_machine.2 ["A => (1, 2)".toList] false [] [] (by decide)).1
